import Mathlib

/-
Verification of the splitter interactive ledger assistant: a shallow
embedding of its transaction model, word-at-a-time command parser and
chronological insertion engine, together with proofs of the stated
correctness properties.
-/

set_option maxHeartbeats 1000000

attribute [local semireducible] Rat.add Rat.mul Rat.sub Rat.inv Rat.ofScientific

/-- Calendar date as carried by transactions and the insertion engine.
The source stores chrono `NaiveDate`; its ordering is chronological,
i.e. lexicographic on (year, month, day). -/
structure Date where
  year : Nat
  month : Nat
  day : Nat
deriving DecidableEq

/-- Chronological comparison of two dates, mirroring chrono's `Ord` for
`NaiveDate`. -/
def Date.cmp (a b : Date) : Ordering :=
  (compare a.year b.year).then ((compare a.month b.month).then (compare a.day b.day))

/-- Strict chronological order on dates. -/
def dateLt (a b : Date) : Prop :=
  a.year < b.year ∨ (a.year = b.year ∧ (a.month < b.month ∨ (a.month = b.month ∧ a.day < b.day)))

/-- Non-strict chronological order on dates. -/
def dateLe (a b : Date) : Prop := dateLt a b ∨ a = b

instance (a b : Date) : Decidable (dateLt a b) := by
  unfold dateLt; infer_instance

instance (a b : Date) : Decidable (dateLe a b) := by
  unfold dateLe; infer_instance

theorem dateLt_trans {a b c : Date} (h1 : dateLt a b) (h2 : dateLt b c) : dateLt a c := by
  obtain ⟨y1, m1, d1⟩ := a; obtain ⟨y2, m2, d2⟩ := b; obtain ⟨y3, m3, d3⟩ := c
  unfold dateLt at *; omega

theorem dateLt_irrefl (a : Date) : ¬ dateLt a a := by
  obtain ⟨y, m, d⟩ := a; unfold dateLt; omega

theorem dateLt_ne {a b : Date} (h : dateLt a b) : a ≠ b := by
  rintro rfl; exact dateLt_irrefl a h

theorem dateLt_of_le_of_ne {a b : Date} (h : dateLe a b) (hne : a ≠ b) : dateLt a b := by
  rcases h with h | rfl
  · exact h
  · exact absurd rfl hne

theorem dateLt_of_lt_of_le {a b c : Date} (h1 : dateLt a b) (h2 : dateLe b c) : dateLt a c := by
  rcases h2 with h2 | rfl
  · exact dateLt_trans h1 h2
  · exact h1

theorem dateLe_trans {a b c : Date} (h1 : dateLe a b) (h2 : dateLe b c) : dateLe a c := by
  rcases h1 with h1 | rfl
  · exact Or.inl (dateLt_of_lt_of_le h1 h2)
  · exact h2

/-- Lexicographic comparison of char sequences. Rust compares `String`s
byte-wise; for UTF-8 encoded text byte order and code-point order coincide,
so this models the derived `Ord` on Rust strings. -/
def charsLtB : List Char → List Char → Bool
  | [], [] => false
  | [], _ :: _ => true
  | _ :: _, [] => false
  | a :: as, b :: bs => if a < b then true else if b < a then false else charsLtB as bs

/-- Strict order on strings as Rust's derived `Ord` compares them. -/
def stringLt (a b : String) : Prop := charsLtB a.data b.data = true

instance (a b : String) : Decidable (stringLt a b) := by
  unfold stringLt; infer_instance

theorem charsLtB_trans : ∀ {a b c : List Char},
    charsLtB a b = true → charsLtB b c = true → charsLtB a c = true
  | [], [], _, h1, _ => by simp [charsLtB] at h1
  | [], _ :: _, [], _, h2 => by simp [charsLtB] at h2
  | [], _ :: _, _ :: _, _, _ => by simp [charsLtB]
  | _ :: _, [], _, h1, _ => by simp [charsLtB] at h1
  | _ :: _, _ :: _, [], _, h2 => by simp [charsLtB] at h2
  | a :: as, b :: bs, c :: cs, h1, h2 => by
    simp only [charsLtB] at h1 h2 ⊢
    rcases lt_trichotomy a b with hab | hab | hab
    · rcases lt_trichotomy b c with hbc | hbc | hbc
      · simp [lt_trans hab hbc]
      · subst hbc; simp [hab]
      · rw [if_neg (lt_asymm hbc), if_pos hbc] at h2; exact absurd h2 (by simp)
    · subst hab
      rw [if_neg (lt_irrefl a), if_neg (lt_irrefl a)] at h1
      rcases lt_trichotomy a c with hac | hac | hac
      · simp [hac]
      · subst hac
        rw [if_neg (lt_irrefl a), if_neg (lt_irrefl a)] at h2 ⊢
        exact charsLtB_trans h1 h2
      · rw [if_neg (lt_asymm hac), if_pos hac] at h2; exact absurd h2 (by simp)
    · rw [if_neg (lt_asymm hab), if_pos hab] at h1; exact absurd h1 (by simp)

theorem charsLtB_irrefl : ∀ (a : List Char), charsLtB a a = false
  | [] => rfl
  | a :: as => by
    simp only [charsLtB]
    rw [if_neg (lt_irrefl a), if_neg (lt_irrefl a)]
    exact charsLtB_irrefl as

theorem charsLtB_total : ∀ {a b : List Char},
    charsLtB a b = false → charsLtB b a = false → a = b
  | [], [], _, _ => rfl
  | [], _ :: _, h1, _ => by simp [charsLtB] at h1
  | _ :: _, [], _, h2 => by simp [charsLtB] at h2
  | a :: as, b :: bs, h1, h2 => by
    simp only [charsLtB] at h1 h2
    rcases lt_trichotomy a b with hab | hab | hab
    · rw [if_pos hab] at h1; exact absurd h1 (by simp)
    · subst hab
      rw [if_neg (lt_irrefl a), if_neg (lt_irrefl a)] at h1 h2
      rw [charsLtB_total h1 h2]
    · rw [if_pos hab] at h2; exact absurd h2 (by simp)

theorem stringLt_trans {a b c : String} (h1 : stringLt a b) (h2 : stringLt b c) : stringLt a c :=
  charsLtB_trans h1 h2

theorem stringLt_irrefl (a : String) : ¬ stringLt a a := by
  unfold stringLt; rw [charsLtB_irrefl]; simp

theorem stringLt_asymm {a b : String} (h : stringLt a b) : ¬ stringLt b a := by
  intro h2
  exact stringLt_irrefl a (stringLt_trans h h2)

theorem stringLt_total {a b : String} (h1 : ¬ stringLt a b) (h2 : ¬ stringLt b a) : a = b := by
  unfold stringLt at h1 h2
  have e : a.data = b.data := charsLtB_total (by simpa using h1) (by simpa using h2)
  cases a; cases b; exact congrArg String.mk (by simpa using e)

theorem stringLt_ne {a b : String} (h : stringLt a b) : a ≠ b := by
  rintro rfl; exact stringLt_irrefl a h

/-- Rust `Amount(commodity, magnitude)`: commodity symbol plus exact decimal
magnitude. rust_decimal's `Decimal` is modelled as `ℚ`: every operation the
program performs on magnitudes (addition, negation, division by two) is exact
there, matching the spec's "within representable precision" reading. -/
structure Amount where
  commodity : String
  magnitude : ℚ
deriving DecidableEq

/-- The derived lexicographic `Ord` of `Amount(String, Decimal)`: commodity
first, then magnitude. -/
def Amount.le (a b : Amount) : Prop :=
  stringLt a.commodity b.commodity ∨ (a.commodity = b.commodity ∧ a.magnitude ≤ b.magnitude)

instance (a b : Amount) : Decidable (Amount.le a b) := by
  unfold Amount.le; infer_instance

instance : IsTotal Amount Amount.le := by
  constructor
  intro a b
  by_cases hab : stringLt a.commodity b.commodity
  · exact Or.inl (Or.inl hab)
  · by_cases hba : stringLt b.commodity a.commodity
    · exact Or.inr (Or.inl hba)
    · have e := stringLt_total hab hba
      rcases le_total a.magnitude b.magnitude with hm | hm
      · exact Or.inl (Or.inr ⟨e, hm⟩)
      · exact Or.inr (Or.inr ⟨e.symm, hm⟩)

instance : IsTrans Amount Amount.le := by
  constructor
  intro a b c hab hbc
  rcases hab with h1 | ⟨e1, m1⟩
  · rcases hbc with h2 | ⟨e2, m2⟩
    · exact Or.inl (stringLt_trans h1 h2)
    · exact Or.inl (e2 ▸ h1)
  · rcases hbc with h2 | ⟨e2, m2⟩
    · exact Or.inl (e1 ▸ h2)
    · exact Or.inr ⟨e1.trans e2, le_trans m1 m2⟩

instance : IsAntisymm Amount Amount.le := by
  constructor
  intro a b hab hba
  rcases hab with h1 | ⟨e1, m1⟩
  · rcases hba with h2 | ⟨e2, m2⟩
    · exact absurd h2 (stringLt_asymm h1)
    · exact absurd h1 (e2 ▸ stringLt_irrefl _)
  · rcases hba with h2 | ⟨e2, m2⟩
    · exact absurd h2 (e1 ▸ stringLt_irrefl _)
    · obtain ⟨ca, ma⟩ := a; obtain ⟨cb, mb⟩ := b
      simp only at e1 m1 m2
      simp [e1, le_antisymm m1 m2]

/-- The changes map of a transaction. The source's
`HashMap<String, Vec<Amount>>` is modelled as an association list kept in
first-insertion order; since Rust leaves HashMap iteration order unspecified,
every verified statement about map contents goes through key lookup, which is
what HashMap equality compares. -/
abbrev Changes := List (String × List Amount)

/-- Rust `Transaction`: date, free-form description and the per-account changes. -/
structure Transaction where
  date : Date
  description : String
  changes : Changes
deriving DecidableEq

/-- Source `Transaction::new`: empty changes map. -/
def Transaction.new (date : Date) (description : String) : Transaction :=
  ⟨date, description, []⟩

/-- The found-`position` branch of `Transaction::add_change`'s `and_modify`:
`v[pos].1 = v[pos].1 + amount.1` updates the first entry whose commodity
matches. -/
def updateFirst : List Amount → Amount → List Amount
  | [], _ => []
  | x :: xs, a =>
    if x.commodity == a.commodity then ⟨x.commodity, x.magnitude + a.magnitude⟩ :: xs
    else x :: updateFirst xs a

/-- Body of `Transaction::add_change`'s `and_modify` closure: sum into the
first entry with the same commodity if one exists, else push the new amount
and re-sort the vector (Rust's stable `sort` under the derived `Ord`). -/
def addToVec (v : List Amount) (a : Amount) : List Amount :=
  if v.any (fun am => am.commodity == a.commodity) then updateFirst v a
  else List.insertionSort Amount.le (v ++ [a])

/-- Source `Transaction::add_change` on the changes map: `entry(account)` with
`and_modify(..).or_insert(vec![amount])`. -/
def addChangeToMap : Changes → String → Amount → Changes
  | [], acct, a => [(acct, [a])]
  | kv :: rest, acct, a =>
    if kv.1 == acct then (kv.1, addToVec kv.2 a) :: rest
    else kv :: addChangeToMap rest acct a

/-- Source `Transaction::add_change`. -/
def Transaction.add_change (tx : Transaction) (account : String) (amount : Amount) : Transaction :=
  { tx with changes := addChangeToMap tx.changes account amount }

/-- Source `Transaction::add_split_change`: halve the amount exactly and add the half
to both accounts. -/
def Transaction.add_split_change (tx : Transaction) (account split_account : String) (amount : Amount) : Transaction :=
  ((tx.add_change account ⟨amount.commodity, amount.magnitude / 2⟩).add_change
    split_account ⟨amount.commodity, amount.magnitude / 2⟩)

/-- One step of `Transaction::balance`'s accumulation: HashMap
`entry(commodity).and_modify(|a| *a = amount.1 + *a).or_insert(amount.1)`. -/
def addToBalances : List (String × ℚ) → Amount → List (String × ℚ)
  | [], a => [(a.commodity, a.magnitude)]
  | cq :: rest, a =>
    if cq.1 == a.commodity then (cq.1, a.magnitude + cq.2) :: rest
    else cq :: addToBalances rest a

/-- All amounts of all accounts in the changes map, in map order (the source
iterates `changes.values()` and every inner vector). -/
def amountsOf : Changes → List Amount
  | [] => []
  | kv :: rest => kv.2 ++ amountsOf rest

/-- Source `Transaction::balance`: per-commodity sums over every account, rendered as
a sorted `Vec<Amount>`. -/
def Transaction.balance (tx : Transaction) : List Amount :=
  List.insertionSort Amount.le
    (((amountsOf tx.changes).foldl addToBalances []).map (fun p => ⟨p.1, p.2⟩))

/-- Source `Transaction::finalize`: compute `balance()` once, then add every negated
balance to `account`. -/
def Transaction.finalize (tx : Transaction) (account : String) : Transaction :=
  tx.balance.foldl (fun t a => t.add_change account ⟨a.commodity, -a.magnitude⟩) tx

/-- Parser-produced `Operation` (tui/parser.rs). -/
inductive Operation where
  | addSimpleChange (account : String) (amount : Amount)
  | addSplitChange (account1 account2 : String) (amount : Amount)
  | finalize (account : String)
deriving DecidableEq

/-- Source `Operation::add_to_transation` (typo kept from the source). -/
def Operation.add_to_transation (op : Operation) (tx : Transaction) : Transaction :=
  match op with
  | .addSimpleChange account amount => tx.add_change account amount
  | .addSplitChange a1 a2 amount => tx.add_split_change a1 a2 amount
  | .finalize account => tx.finalize account

/-- Apply a sequence of operations in arrival order. -/
def applyOps (tx : Transaction) (ops : List Operation) : Transaction :=
  ops.foldl (fun t op => op.add_to_transation t) tx

example :
    (((Transaction.new ⟨2020, 1, 10⟩ "Test").add_change "Expenses::Food" ⟨"E", 5⟩).add_change
      "Expenses::Food" ⟨"CZK", 120⟩).changes =
      [("Expenses::Food", [⟨"CZK", 120⟩, ⟨"E", 5⟩])] := by decide

example :
    ((((Transaction.new ⟨2020, 1, 10⟩ "Test").add_change "Food" ⟨"E", 7⟩).add_change
      "Cash" ⟨"E", -2⟩).finalize "Acct").balance = [⟨"E", 0⟩] := by decide

/-- The `TokenType` the parser expects next (tui/parser.rs). -/
inductive TokenType where
  | operation
  | account
  | currency
  | amount
  | eol
deriving DecidableEq

/-- The pending `OperationType` (tui/parser.rs). -/
inductive OperationType where
  | addSimple
  | addSplit
  | finalize
deriving DecidableEq

/-- Source `OperationType::parse`: exactly the three one-letter codes. -/
def OperationType.parse (word : String) : Option OperationType :=
  if word = "a" then some .addSimple
  else if word = "s" then some .addSplit
  else if word = "f" then some .finalize
  else none

/-- Class `\p{L}` of the account regex. It is modelled exactly on the ASCII
range; all codepoints above ASCII are treated as letters (an
over-approximation of the Unicode letter class — every account token the
verified statements touch is ASCII, where the model is exact). -/
def isLetterChar (c : Char) : Bool := c.isAlpha || c.toNat > 127

/-- First-character class of the account regex
`^[\p{L}&&[^:digit:]][\p{L}[:digit:]:]*$`: the nested `[^:digit:]` is a
negated literal class over the characters `:`, `d`, `i`, `g`, `t`, so the
first character must be a letter outside that set. -/
def accountFirstOk (c : Char) : Bool :=
  isLetterChar c && !(c = ':' || c = 'd' || c = 'i' || c = 'g' || c = 't')

/-- Tail-character class of the account regex: a letter, an ASCII digit
(`[:digit:]` in class position is the POSIX digit class) or `:`. -/
def accountRestOk (c : Char) : Bool := isLetterChar c || c.isDigit || c = ':'

/-- Source `ACC_RE.is_match`: the whole word matches the account regex. -/
def isValidAccount (w : String) : Bool :=
  match w.data with
  | [] => false
  | c :: rest => accountFirstOk c && rest.all accountRestOk

/-- Source `CURR_RE.is_match` for `^[^0-9]+$`: the word is nonempty and no character
is an ASCII digit. -/
def isValidCurrency (w : String) : Bool :=
  !w.data.isEmpty && w.data.all (fun c => !c.isDigit)

/-- Split a character sequence at the first `.`, keeping everything after it
(used to model `Decimal::from_str`). -/
def splitDot : List Char → List Char × Option (List Char)
  | [] => ([], none)
  | c :: rest =>
    if c = '.' then ([], some rest)
    else
      let p := splitDot rest
      (c :: p.1, p.2)

/-- Numeric value of a digit sequence. -/
def digitsVal (l : List Char) : Nat :=
  l.foldl (fun acc c => acc * 10 + (c.toNat - 48)) 0

/-- Model of `rust_decimal::Decimal::from_str` on its plain fragment: an
optional sign, then digits with at most one decimal point and digits on both
sides of it. The value is exact (the claims never exercise the 96-bit
mantissa / 28-digit scale limits). -/
def parseDecimal (s : String) : Option ℚ :=
  let signBody : ℚ × List Char :=
    match s.data with
    | '-' :: r => (-1, r)
    | '+' :: r => (1, r)
    | r => (1, r)
  match splitDot signBody.2 with
  | (ints, none) =>
    if !ints.isEmpty && ints.all Char.isDigit then
      some (signBody.1 * (digitsVal ints : ℚ))
    else none
  | (ints, some fracs) =>
    if !ints.isEmpty && !fracs.isEmpty && ints.all Char.isDigit && fracs.all Char.isDigit then
      some (signBody.1 * ((digitsVal ints : ℚ) + (digitsVal fracs : ℚ) / (10 : ℚ) ^ fracs.length))
    else none

/-- The incremental word-at-a-time command parser (tui/parser.rs). -/
structure Parser where
  next : TokenType
  op_type : Option OperationType
  accounts : List String
  currency : Option String
  amount : Option ℚ
deriving DecidableEq

/-- Source `Parser::new`. -/
def Parser.new : Parser := ⟨.operation, none, [], none, none⟩

/-- Source `Parser::parse_op_type`. On failure the parser state is unchanged (the
source returns the error before any mutation). -/
def Parser.parse_op_type (p : Parser) (word : String) : Except String Parser :=
  match OperationType.parse word with
  | some t => .ok { p with op_type := some t, next := .account }
  | none => .error "Invalid operation type"

/-- Source `Parser::parse_account`: validate against the account regex, push the
word, then pick the next expected token (the length test runs after the
push, as in the source). -/
def Parser.parse_account (p : Parser) (word : String) : Except String Parser :=
  if isValidAccount word then
    let p' : Parser := { p with accounts := p.accounts ++ [word] }
    if p'.op_type = some .addSplit ∧ p'.accounts.length = 1 then
      .ok { p' with next := .account }
    else if p'.op_type = some .finalize then
      .ok { p' with next := .eol }
    else
      .ok { p' with next := .currency }
  else .error "Account name contains invalid character"

/-- Source `Parser::parse_currency`. -/
def Parser.parse_currency (p : Parser) (word : String) : Except String Parser :=
  if isValidCurrency word then .ok { p with currency := some word, next := .amount }
  else .error "Currency contains invalid characters"

/-- Source `Parser::parse_amount`: `Decimal::from_str(word)?`. -/
def Parser.parse_amount (p : Parser) (word : String) : Except String Parser :=
  match parseDecimal word with
  | some q => .ok { p with amount := some q, next := .eol }
  | none => .error "Invalid decimal"

/-- Source `Parser::parse_word`: dispatch on the expected token. -/
def Parser.parse_word (p : Parser) (word : String) : Except String Parser :=
  match p.next with
  | .operation => p.parse_op_type word
  | .account => p.parse_account word
  | .currency => p.parse_currency word
  | .amount => p.parse_amount word
  | .eol => .error "Unexpected input at end of line"

/-- Source `Parser::operation`: build the `Operation` only in the `EOL` state. The
source `unwrap`s its fields there; a missing field is modelled as `none`,
and `parser_eol_operation_isSome` shows that from `Parser::new` the fields
are always present at `EOL`, so the panic is unreachable. -/
def Parser.operation (p : Parser) : Option Operation :=
  if p.next ≠ .eol then none
  else
    match p.op_type with
    | some .addSimple =>
      match p.accounts, p.currency, p.amount with
      | a :: _, some c, some m => some (.addSimpleChange a ⟨c, m⟩)
      | _, _, _ => none
    | some .addSplit =>
      match p.accounts, p.currency, p.amount with
      | a1 :: a2 :: _, some c, some m => some (.addSplitChange a1 a2 ⟨c, m⟩)
      | _, _, _ => none
    | some .finalize =>
      match p.accounts with
      | a :: _ => some (.finalize a)
      | _ => none
    | none => none

/-- Whether an `Except` value is an error. -/
def isErr : Except String Parser → Bool
  | .ok _ => false
  | .error _ => true

/-- Rust `char::is_ascii_whitespace`: space, tab, newline, form feed,
carriage return. -/
def isAsciiWs (c : Char) : Bool :=
  c = ' ' || c = '\t' || c = '\n' || c = '\x0c' || c = '\r'

/-- Accumulator pass of `split_ascii_whitespace`: split on runs of ASCII
whitespace, dropping empty tokens. -/
def wordsAux : List Char → List Char → List String
  | [], [] => []
  | [], acc => [String.mk acc.reverse]
  | c :: cs, acc =>
    if isAsciiWs c then
      match acc with
      | [] => wordsAux cs []
      | _ => String.mk acc.reverse :: wordsAux cs []
    else wordsAux cs (c :: acc)

/-- Rust `str::split_ascii_whitespace`, collected to a list. -/
def splitAsciiWhitespace (s : String) : List String := wordsAux s.data []

/-- The word loop of `TUIController::parse_change`: each word is fed to the
parser; a failing word is reported and otherwise skipped (`continue`), the
parser keeping its state. -/
def runWords (p : Parser) (words : List String) : Parser :=
  words.foldl (fun s w => match s.parse_word w with | .ok s' => s' | .error _ => s) p

/-- Source `TUIController::parse_change` restricted to its effect on the pending
transaction: an empty line prints and writes the transaction out unchanged;
otherwise the words are parsed and the built operation is applied only when
the final state is exactly `EOL` (the `unwrap` on `operation()` is modelled
by the `none => tx` branch, unreachable from `Parser::new`). -/
def TUIController.parse_change (tx : Transaction) (line : String) : Transaction :=
  if line = "" then tx
  else if (runWords Parser.new (splitAsciiWhitespace line)).next = .eol then
    match (runWords Parser.new (splitAsciiWhitespace line)).operation with
    | some op => op.add_to_transation tx
    | none => tx
  else tx

/-- Leap-year rule of the proleptic Gregorian calendar used by chrono. -/
def isLeapYear (y : Nat) : Bool := y % 4 = 0 && (y % 100 ≠ 0 || y % 400 = 0)

/-- Days in a month of the proleptic Gregorian calendar. -/
def daysInMonth (y m : Nat) : Nat :=
  if m = 2 then (if isLeapYear y then 29 else 28)
  else if m = 4 || m = 6 || m = 9 || m = 11 then 30
  else 31

/-- Model of chrono `NaiveDate`'s `FromStr` on the claims' `YYYY-MM-DD`
format: four year digits, two month digits, two day digits, and the date must
be calendar-valid. -/
def parseDate (s : String) : Option Date :=
  match s.data with
  | [y1, y2, y3, y4, '-', m1, m2, '-', d1, d2] =>
    if [y1, y2, y3, y4, m1, m2, d1, d2].all Char.isDigit then
      let y := digitsVal [y1, y2, y3, y4]
      let m := digitsVal [m1, m2]
      let d := digitsVal [d1, d2]
      if 1 ≤ m && m ≤ 12 && 1 ≤ d && d ≤ daysInMonth y m then some ⟨y, m, d⟩ else none
    else none
  | _ => none

/-- Source `parse_transaction_header` (tui/parser.rs): split the line on ASCII
whitespace, parse the first field as the date, join the remaining fields with
single spaces as the description. -/
def parse_transaction_header (line : String) : Except String Transaction :=
  match splitAsciiWhitespace line with
  | [] => .error "No transaction header provided"
  | d :: rest =>
    match parseDate d with
    | some date => .ok (Transaction.new date (String.intercalate " " rest))
    | none => .error "Malformed transaction date"

example : splitAsciiWhitespace "a  Expenses:Food \t E 5" = ["a", "Expenses:Food", "E", "5"] := by decide

example : parseDecimal "12.30" = some (123 / 10 : ℚ) := by decide

example : isValidAccount "Expenses:Food" = true ∧ isValidAccount "1checking" = false ∧
    isValidAccount "debts" = false ∧ isValidCurrency "1a2b" = false := by decide

example : parseDate "2020-02-29" = some ⟨2020, 2, 29⟩ ∧ parseDate "2021-02-29" = none := by decide

/-- Result of `slice::binary_search_by_key`: `Ok(index)` of a matching
element, or `Err(insertion index)`. -/
inductive SearchResult where
  | found (i : Nat)
  | notFound (j : Nat)
deriving DecidableEq

/-- Final probe of Rust's `binary_search_by` once the window has shrunk to a
single element at `base`. -/
def bsFinish (l : List (Date × Nat)) (target : Date) (base : Nat) : SearchResult :=
  let c := Date.cmp (l.getD base ⟨⟨0, 0, 0⟩, 0⟩).1 target
  if c = .eq then .found base
  else .notFound (base + (if c = .lt then 1 else 0))

/-- The halving loop of Rust's `binary_search_by` (the pre-2021 branchless
implementation in `core::slice`): while `size > 1`, probe `base + size / 2`
and keep the half that can contain the target. `fuel` only feeds structural
recursion; it starts at the list length, which bounds the iteration count. -/
def bsLoop (l : List (Date × Nat)) (target : Date) : Nat → Nat → Nat → SearchResult
  | 0, base, _ => bsFinish l target base
  | fuel + 1, base, size =>
    if 1 < size then
      let half := size / 2
      let mid := base + half
      let c := Date.cmp (l.getD mid ⟨⟨0, 0, 0⟩, 0⟩).1 target
      bsLoop l target fuel (if c = .gt then base else mid) (size - half)
    else bsFinish l target base

/-- Source call `date_ends.binary_search_by_key(&tx_date, |(date, _)| *date)`. -/
def binarySearchByKey (l : List (Date × Nat)) (target : Date) : SearchResult :=
  if l.length = 0 then .notFound 0
  else bsLoop l target l.length 0 l.length

/-- Source `get_pos_for_date` (ledger.rs): on an exact match take that entry's
offset; otherwise take the previous entry's offset, or `0` when the date
sorts before everything. -/
def get_pos_for_date (date_ends : List (Date × Nat)) (tx_date : Date) : Nat :=
  match binarySearchByKey date_ends tx_date with
  | .found i => (date_ends.getD i ⟨⟨0, 0, 0⟩, 0⟩).2
  | .notFound j => if j = 0 then 0 else (date_ends.getD (j - 1) ⟨⟨0, 0, 0⟩, 0⟩).2

/-- One step of the fold in `get_date_end_positions`: if the incoming pair
carries the same date as the last collected pair, pop that pair and push the
incoming one; otherwise just push. -/
def dedupeStep (collected : List (Date × Nat)) (p : Date × Nat) : List (Date × Nat) :=
  match collected.getLast? with
  | some q => if q.1 = p.1 then collected.dropLast ++ [p] else collected ++ [p]
  | none => collected ++ [p]

/-- The whole fold of `get_date_end_positions` over the (date, end_pos) rows
ledger printed, in row order. -/
def dedupeFold (l : List (Date × Nat)) : List (Date × Nat) :=
  l.foldl dedupeStep []

/-- Structural form of `dedupeFold`: drop every pair whose successor carries
the same date, i.e. keep the last element of each maximal adjacent run. -/
def collapseRuns : List (Date × Nat) → List (Date × Nat)
  | [] => []
  | [p] => [p]
  | p :: q :: rest =>
    if p.1 = q.1 then collapseRuns (q :: rest) else p :: collapseRuns (q :: rest)

/-- UTF-8 bytes of a string, for ASCII content (where bytes and code points
coincide; every byte-level scenario below is ASCII). -/
def bytes (s : String) : List Nat := s.data.map Char.toNat

/-- The pure content of `write_transaction` (ledger.rs): given the file's
bytes, the deduplicated (date, end_pos) list, the new transaction's date and
its rendered bytes, produce the rewritten file. `none` models a Rust panic:
`buf.len() - 1` underflows on an empty buffer (debug profile; the release
wrap-around makes the following `split_at` go out of bounds instead), and
`split_at` panics when the split point exceeds the buffer. Byte 10 is the
newline the source tests against. -/
def splice (buf : List Nat) (date_ends : List (Date × Nat)) (tx_date : Date)
    (tx_bytes : List Nat) : Option (List Nat) :=
  if buf.isEmpty then none
  else
    let tx_pos := get_pos_for_date date_ends tx_date
    let split_offset := if tx_pos < buf.length - 1 then 1 else 0
    if tx_pos + split_offset > buf.length then none
    else
      let before_tx := buf.take (tx_pos + split_offset)
      let after_tx := buf.drop (tx_pos + split_offset)
      let sep1 : List Nat :=
        match before_tx.getLast? with
        | some last => if last ≠ 10 ∨ after_tx.length = 0 then [10] else []
        | none => []
      let sep2 : List Nat := if after_tx.head? ≠ some 10 then [10] else []
      some (before_tx ++ sep1 ++ tx_bytes ++ sep2 ++ after_tx)

example : binarySearchByKey [(⟨2020, 1, 10⟩, 21)] ⟨2020, 1, 5⟩ = .notFound 0 := by decide

example : get_pos_for_date [(⟨2020, 1, 10⟩, 21)] ⟨2020, 1, 5⟩ = 0 := by decide

example : get_pos_for_date [(⟨2020, 1, 5⟩, 9), (⟨2020, 1, 10⟩, 21)] ⟨2020, 1, 10⟩ = 21 := by decide

example : get_pos_for_date [(⟨2020, 1, 5⟩, 9), (⟨2020, 1, 10⟩, 21)] ⟨2020, 1, 7⟩ = 9 := by decide

example : dedupeFold [(⟨2020, 1, 5⟩, 9), (⟨2020, 1, 5⟩, 21), (⟨2020, 1, 7⟩, 30)] =
    [(⟨2020, 1, 5⟩, 21), (⟨2020, 1, 7⟩, 30)] := by decide

/-- Sum of the magnitudes carried by commodity `c` in a list of amounts. -/
def sumFor (c : String) (l : List Amount) : ℚ :=
  (l.map (fun a => if a.commodity = c then a.magnitude else 0)).sum

/-- Sum of the magnitudes carried by commodity `c` across a changes map. -/
def totFor (c : String) (m : Changes) : ℚ :=
  (m.map (fun kv => sumFor c kv.2)).sum

/-- Sum of the values stored under key `c` in a commodity-sum accumulator. -/
def keySum (c : String) (bal : List (String × ℚ)) : ℚ :=
  (bal.map (fun p => if p.1 = c then p.2 else 0)).sum

/-- Net balance of commodity `c` over the whole transaction. -/
def Transaction.balAt (tx : Transaction) (c : String) : ℚ :=
  sumFor c (amountsOf tx.changes)

theorem sumFor_append (c : String) (v w : List Amount) :
    sumFor c (v ++ w) = sumFor c v + sumFor c w := by
  simp [sumFor]

theorem sumFor_perm (c : String) {v w : List Amount} (h : v.Perm w) :
    sumFor c v = sumFor c w :=
  (h.map _).sum_eq

theorem sumFor_updateFirst (c : String) {v : List Amount} (a : Amount)
    (h : v.any (fun am => am.commodity == a.commodity) = true) :
    sumFor c (updateFirst v a) = sumFor c v + (if a.commodity = c then a.magnitude else 0) := by
  induction v with
  | nil => simp at h
  | cons x xs ih =>
    simp only [updateFirst]
    by_cases hx : x.commodity = a.commodity
    · rw [if_pos (by simpa using hx)]
      simp only [sumFor, List.map_cons, List.sum_cons]
      by_cases hc : a.commodity = c
      · rw [if_pos (hx.trans hc), if_pos (hx.trans hc), if_pos hc]
        ring_nf
      · rw [if_neg (fun e => hc (hx ▸ e)), if_neg (fun e => hc (hx ▸ e)), if_neg hc]
        simp [sumFor]
    · rw [if_neg (by simpa using hx)]
      have h' : xs.any (fun am => am.commodity == a.commodity) = true := by
        simp only [List.any_cons, Bool.or_eq_true] at h
        rcases h with h | h
        · exact absurd (by simpa using h) hx
        · exact h
      simp only [sumFor, List.map_cons, List.sum_cons] at *
      rw [ih h']
      ring

theorem sumFor_addToVec (c : String) (v : List Amount) (a : Amount) :
    sumFor c (addToVec v a) = sumFor c v + (if a.commodity = c then a.magnitude else 0) := by
  unfold addToVec
  by_cases h : v.any (fun am => am.commodity == a.commodity) = true
  · rw [if_pos h, sumFor_updateFirst c a h]
  · rw [if_neg h, sumFor_perm c (List.perm_insertionSort Amount.le (v ++ [a])),
      sumFor_append]
    simp [sumFor]

theorem totFor_addChangeToMap (c : String) (m : Changes) (acct : String) (a : Amount) :
    totFor c (addChangeToMap m acct a) =
      totFor c m + (if a.commodity = c then a.magnitude else 0) := by
  induction m with
  | nil => simp [addChangeToMap, totFor, sumFor]
  | cons kv rest ih =>
    simp only [addChangeToMap]
    by_cases hk : kv.1 = acct
    · rw [if_pos (by simpa using hk)]
      simp only [totFor, List.map_cons, List.sum_cons]
      rw [sumFor_addToVec]
      ring
    · rw [if_neg (by simpa using hk)]
      simp only [totFor, List.map_cons, List.sum_cons] at *
      rw [ih]
      ring

theorem sumFor_amountsOf (c : String) (m : Changes) :
    sumFor c (amountsOf m) = totFor c m := by
  induction m with
  | nil => simp [amountsOf, sumFor, totFor]
  | cons kv rest ih =>
    simp only [amountsOf, sumFor_append, totFor, List.map_cons, List.sum_cons]
    rw [ih]
    rfl

theorem balAt_add_change (tx : Transaction) (acct : String) (a : Amount) (c : String) :
    (tx.add_change acct a).balAt c = tx.balAt c + (if a.commodity = c then a.magnitude else 0) := by
  unfold Transaction.balAt Transaction.add_change
  simp only [sumFor_amountsOf]
  exact totFor_addChangeToMap c tx.changes acct a

theorem keySum_addToBalances (c : String) (bal : List (String × ℚ)) (a : Amount) :
    keySum c (addToBalances bal a) =
      keySum c bal + (if a.commodity = c then a.magnitude else 0) := by
  induction bal with
  | nil => simp [addToBalances, keySum]
  | cons cq rest ih =>
    simp only [addToBalances]
    by_cases hk : cq.1 = a.commodity
    · rw [if_pos (by simpa using hk)]
      simp only [keySum, List.map_cons, List.sum_cons]
      by_cases hc : a.commodity = c
      · rw [if_pos (hk.trans hc), if_pos (hk.trans hc), if_pos hc]
        ring
      · rw [if_neg (fun e => hc (hk ▸ e)), if_neg (fun e => hc (hk ▸ e)), if_neg hc]
        simp
    · rw [if_neg (by simpa using hk)]
      simp only [keySum, List.map_cons, List.sum_cons] at *
      rw [ih]
      ring

theorem keySum_foldl (c : String) (l : List Amount) (acc : List (String × ℚ)) :
    keySum c (l.foldl addToBalances acc) = keySum c acc + sumFor c l := by
  induction l generalizing acc with
  | nil => simp [sumFor, keySum]
  | cons a rest ih =>
    simp only [List.foldl_cons]
    rw [ih, keySum_addToBalances]
    simp only [sumFor, List.map_cons, List.sum_cons]
    ring

theorem any_commodity_iff (v : List Amount) (c : String) :
    v.any (fun am => am.commodity == c) = true ↔ c ∈ v.map Amount.commodity := by
  rw [List.any_eq_true, List.mem_map]
  constructor
  · rintro ⟨x, hx, e⟩
    exact ⟨x, hx, by simpa using e⟩
  · rintro ⟨x, hx, e⟩
    exact ⟨x, hx, by simp [e]⟩

theorem mem_keys_addToBalances (bal : List (String × ℚ)) (a : Amount) (c : String) :
    c ∈ (addToBalances bal a).map Prod.fst ↔ c ∈ bal.map Prod.fst ∨ c = a.commodity := by
  induction bal with
  | nil => simp [addToBalances]
  | cons cq rest ih =>
    simp only [addToBalances]
    by_cases hk : cq.1 = a.commodity
    · rw [if_pos (by simpa using hk)]
      simp only [List.map_cons, List.mem_cons]
      constructor
      · rintro (h | h)
        · exact Or.inl (Or.inl h)
        · exact Or.inl (Or.inr h)
      · rintro ((h | h) | h)
        · exact Or.inl h
        · exact Or.inr h
        · exact Or.inl (h.trans hk.symm)
    · rw [if_neg (by simpa using hk)]
      simp only [List.map_cons, List.mem_cons, ih]
      tauto

theorem nodup_keys_addToBalances (bal : List (String × ℚ)) (a : Amount)
    (h : (bal.map Prod.fst).Nodup) : ((addToBalances bal a).map Prod.fst).Nodup := by
  induction bal with
  | nil => simp [addToBalances]
  | cons cq rest ih =>
    simp only [List.map_cons, List.nodup_cons] at h
    simp only [addToBalances]
    by_cases hk : cq.1 = a.commodity
    · rw [if_pos (by simpa using hk)]
      simp only [List.map_cons, List.nodup_cons]
      exact h
    · rw [if_neg (by simpa using hk)]
      simp only [List.map_cons, List.nodup_cons]
      refine ⟨?_, ih h.2⟩
      rw [mem_keys_addToBalances]
      rintro (hc | hc)
      · exact h.1 hc
      · exact hk hc

theorem mem_keys_balFold (l : List Amount) (acc : List (String × ℚ)) (c : String) :
    c ∈ (l.foldl addToBalances acc).map Prod.fst ↔
      c ∈ acc.map Prod.fst ∨ c ∈ l.map Amount.commodity := by
  induction l generalizing acc with
  | nil => simp
  | cons a rest ih =>
    simp only [List.foldl_cons, ih, mem_keys_addToBalances, List.map_cons, List.mem_cons]
    tauto

theorem nodup_keys_balFold (l : List Amount) (acc : List (String × ℚ))
    (h : (acc.map Prod.fst).Nodup) : ((l.foldl addToBalances acc).map Prod.fst).Nodup := by
  induction l generalizing acc with
  | nil => exact h
  | cons a rest ih =>
    exact ih _ (nodup_keys_addToBalances acc a h)

theorem keySum_of_not_mem {c : String} {bal : List (String × ℚ)}
    (h : c ∉ bal.map Prod.fst) : keySum c bal = 0 := by
  induction bal with
  | nil => simp [keySum]
  | cons cq rest ih =>
    simp only [List.map_cons, List.mem_cons] at h
    push_neg at h
    simp only [keySum, List.map_cons, List.sum_cons]
    rw [if_neg (fun e => h.1 e.symm)]
    simpa [keySum] using ih h.2

theorem keySum_of_mem {c : String} {q : ℚ} {bal : List (String × ℚ)}
    (hmem : (c, q) ∈ bal) (hnd : (bal.map Prod.fst).Nodup) : keySum c bal = q := by
  induction bal with
  | nil => simp at hmem
  | cons cq rest ih =>
    simp only [List.map_cons, List.nodup_cons] at hnd
    rcases List.mem_cons.mp hmem with rfl | hmem'
    · have h0 : keySum c rest = 0 := keySum_of_not_mem (by simpa using hnd.1)
      simp only [keySum, List.map_cons, List.sum_cons] at h0 ⊢
      simp [h0]
    · have hne : cq.1 ≠ c := by
        rintro rfl
        exact hnd.1 (List.mem_map.mpr ⟨(cq.1, q), hmem', rfl⟩)
      simp only [keySum, List.map_cons, List.sum_cons, if_neg hne]
      simpa [keySum] using ih hmem' hnd.2

theorem mem_balance_iff (tx : Transaction) (am : Amount) :
    am ∈ tx.balance ↔
      am ∈ ((amountsOf tx.changes).foldl addToBalances []).map
        (fun p => (⟨p.1, p.2⟩ : Amount)) := by
  unfold Transaction.balance
  exact (List.perm_insertionSort Amount.le _).mem_iff

theorem balance_mag (tx : Transaction) {am : Amount} (h : am ∈ tx.balance) :
    am.magnitude = tx.balAt am.commodity := by
  rw [mem_balance_iff] at h
  obtain ⟨p, hp, rfl⟩ := List.mem_map.mp h
  have hnd : (((amountsOf tx.changes).foldl addToBalances []).map Prod.fst).Nodup :=
    nodup_keys_balFold _ [] (by simp)
  have : keySum p.1 ((amountsOf tx.changes).foldl addToBalances []) = p.2 :=
    keySum_of_mem (by simpa using hp) hnd
  rw [show (⟨p.1, p.2⟩ : Amount).magnitude = p.2 from rfl,
    show (⟨p.1, p.2⟩ : Amount).commodity = p.1 from rfl, ← this,
    keySum_foldl]
  simp [keySum, Transaction.balAt]

theorem balance_commodities (tx : Transaction) (c : String) :
    c ∈ tx.balance.map Amount.commodity ↔
      c ∈ (amountsOf tx.changes).map Amount.commodity := by
  unfold Transaction.balance
  rw [((List.perm_insertionSort Amount.le _).map Amount.commodity).mem_iff]
  rw [List.map_map]
  have : (Amount.commodity ∘ fun p : String × ℚ => (⟨p.1, p.2⟩ : Amount)) = Prod.fst := rfl
  rw [this, mem_keys_balFold]
  simp

theorem sumFor_balance (tx : Transaction) (c : String) :
    sumFor c tx.balance = tx.balAt c := by
  unfold Transaction.balance
  rw [sumFor_perm c (List.perm_insertionSort Amount.le _)]
  have : sumFor c (((amountsOf tx.changes).foldl addToBalances []).map
      (fun p => (⟨p.1, p.2⟩ : Amount))) =
      keySum c ((amountsOf tx.changes).foldl addToBalances []) := by
    simp [sumFor, keySum, List.map_map]
    rfl
  rw [this, keySum_foldl]
  simp [keySum, Transaction.balAt]

theorem balAt_neg_foldl (bl : List Amount) (tx : Transaction) (acct : String) (c : String) :
    ((bl.foldl (fun t a => t.add_change acct ⟨a.commodity, -a.magnitude⟩) tx)).balAt c =
      tx.balAt c - sumFor c bl := by
  induction bl generalizing tx with
  | nil => simp [sumFor]
  | cons a rest ih =>
    simp only [List.foldl_cons]
    rw [ih, balAt_add_change]
    simp only [sumFor, List.map_cons, List.sum_cons]
    by_cases hc : a.commodity = c
    · rw [if_pos hc, if_pos hc]; ring
    · rw [if_neg hc, if_neg hc]; ring

theorem balAt_finalize (tx : Transaction) (acct : String) (c : String) :
    (tx.finalize acct).balAt c = 0 := by
  unfold Transaction.finalize
  rw [balAt_neg_foldl, sumFor_balance]
  ring

/-- Lookup of an account's amount vector, as HashMap `get` behaves on the
association-list model. -/
def findAmounts? : Changes → String → Option (List Amount)
  | [], _ => none
  | kv :: rest, acct => if kv.1 == acct then some kv.2 else findAmounts? rest acct

/-- Lookup of a commodity's magnitude inside one account's vector
(`v.iter().position(|am| am.0 == ..)` followed by the read). -/
def findMag? : List Amount → String → Option ℚ
  | [], _ => none
  | x :: xs, c => if x.commodity = c then some x.magnitude else findMag? xs c

/-- The magnitude the transaction stores for the (account, commodity) pair. -/
def storedMag (m : Changes) (acct c : String) : Option ℚ :=
  match findAmounts? m acct with
  | some v => findMag? v c
  | none => none

/-- Well-formedness of one account's vector: strictly sorted by commodity
(hence commodities are unique). -/
def vecWF (v : List Amount) : Prop :=
  v.Pairwise (fun a b => stringLt a.commodity b.commodity)

/-- Well-formedness of the changes map: unique account keys, every vector
well-formed. -/
def mapWF (m : Changes) : Prop :=
  (m.map Prod.fst).Nodup ∧ ∀ kv ∈ m, vecWF kv.2

theorem pairwise_combine {α : Type} {R S : α → α → Prop} :
    ∀ {l : List α}, l.Pairwise R → l.Pairwise S → l.Pairwise (fun a b => R a b ∧ S a b)
  | [], _, _ => List.Pairwise.nil
  | a :: l, hr, hs => by
    rw [List.pairwise_cons] at *
    exact ⟨fun b hb => ⟨hr.1 b hb, hs.1 b hb⟩, pairwise_combine hr.2 hs.2⟩

theorem vecWF_nodup {v : List Amount} (h : vecWF v) : (v.map Amount.commodity).Nodup := by
  rw [List.Nodup, List.pairwise_map]
  exact h.imp (fun hab => stringLt_ne hab)

theorem map_commodity_updateFirst (v : List Amount) (a : Amount) :
    (updateFirst v a).map Amount.commodity = v.map Amount.commodity := by
  induction v with
  | nil => rfl
  | cons x xs ih =>
    simp only [updateFirst]
    by_cases hx : x.commodity = a.commodity
    · rw [if_pos (by simpa using hx)]
      rfl
    · rw [if_neg (by simpa using hx)]
      simp only [List.map_cons, ih]

theorem findMag?_updateFirst (v : List Amount) (a : Amount) (c : String) :
    findMag? (updateFirst v a) c =
      if c = a.commodity then (findMag? v c).map (fun q => q + a.magnitude)
      else findMag? v c := by
  induction v with
  | nil =>
    simp [updateFirst, findMag?]
  | cons x xs ih =>
    simp only [updateFirst]
    by_cases hx : x.commodity = a.commodity
    · rw [if_pos (by simpa using hx)]
      by_cases hc : c = a.commodity
      · rw [if_pos hc]
        simp only [findMag?]
        rw [if_pos (hx.trans hc.symm), if_pos (hx.trans hc.symm)]
        rfl
      · rw [if_neg hc]
        simp only [findMag?]
        rw [if_neg (fun e => hc (e.symm.trans hx)), if_neg (fun e => hc (e.symm.trans hx))]
    · rw [if_neg (by simpa using hx)]
      by_cases hxc : x.commodity = c
      · simp only [findMag?, if_pos hxc]
        have : ¬ c = a.commodity := fun e => hx (hxc.trans e)
        rw [if_neg this]
      · simp only [findMag?, if_neg hxc]
        exact ih

theorem findMag?_isSome (v : List Amount) (c : String) :
    (findMag? v c).isSome = true ↔ c ∈ v.map Amount.commodity := by
  induction v with
  | nil => simp [findMag?]
  | cons x xs ih =>
    simp only [findMag?, List.map_cons, List.mem_cons]
    by_cases hx : x.commodity = c
    · rw [if_pos hx]
      simp [hx]
    · rw [if_neg hx]
      rw [ih]
      constructor
      · exact Or.inr
      · rintro (h | h)
        · exact absurd h.symm hx
        · exact h

theorem findMag?_mem {v : List Amount} {c : String} {q : ℚ} (h : findMag? v c = some q) :
    (⟨c, q⟩ : Amount) ∈ v := by
  induction v with
  | nil => simp [findMag?] at h
  | cons x xs ih =>
    simp only [findMag?] at h
    by_cases hx : x.commodity = c
    · rw [if_pos hx] at h
      obtain ⟨cx, mx⟩ := x
      simp only at hx
      injection h with h
      subst hx; subst h
      exact List.mem_cons_self _ _
    · rw [if_neg hx] at h
      exact List.mem_cons_of_mem _ (ih h)

theorem findMag?_of_mem {v : List Amount} {c : String} {q : ℚ}
    (hnd : (v.map Amount.commodity).Nodup) (h : (⟨c, q⟩ : Amount) ∈ v) :
    findMag? v c = some q := by
  induction v with
  | nil => simp at h
  | cons x xs ih =>
    simp only [List.map_cons, List.nodup_cons] at hnd
    rcases List.mem_cons.mp h with rfl | h'
    · simp [findMag?]
    · simp only [findMag?]
      have hx : x.commodity ≠ c := by
        rintro rfl
        exact hnd.1 (List.mem_map.mpr ⟨⟨x.commodity, q⟩, h', rfl⟩)
      rw [if_neg hx]
      exact ih hnd.2 h'

theorem findMag?_perm {v w : List Amount} (hp : v.Perm w)
    (hnd : (v.map Amount.commodity).Nodup) (c : String) :
    findMag? v c = findMag? w c := by
  have hndw : (w.map Amount.commodity).Nodup := (hp.map Amount.commodity).nodup_iff.mp hnd
  match hq : findMag? v c with
  | some q =>
    exact (findMag?_of_mem hndw (hp.mem_iff.mp (findMag?_mem hq))).symm
  | none =>
    match hw : findMag? w c with
    | some q =>
      have : (⟨c, q⟩ : Amount) ∈ v := hp.mem_iff.mpr (findMag?_mem hw)
      rw [findMag?_of_mem hnd this] at hq
      exact absurd hq (by simp)
    | none => rfl

theorem findMag?_append (v w : List Amount) (c : String) :
    findMag? (v ++ w) c =
      match findMag? v c with
      | some q => some q
      | none => findMag? w c := by
  induction v with
  | nil => simp [findMag?]
  | cons x xs ih =>
    simp only [List.cons_append, findMag?]
    by_cases hx : x.commodity = c
    · rw [if_pos hx, if_pos hx]
    · rw [if_neg hx, if_neg hx]
      exact ih

theorem findMag?_addToVec {v : List Amount} (hwf : vecWF v) (a : Amount) (c : String) :
    findMag? (addToVec v a) c =
      if c = a.commodity then some ((findMag? v c).getD 0 + a.magnitude)
      else findMag? v c := by
  unfold addToVec
  by_cases h : v.any (fun am => am.commodity == a.commodity) = true
  · rw [if_pos h, findMag?_updateFirst]
    by_cases hc : c = a.commodity
    · rw [if_pos hc, if_pos hc]
      have hmem : a.commodity ∈ v.map Amount.commodity := (any_commodity_iff v a.commodity).mp h
      have : (findMag? v c).isSome = true := (findMag?_isSome v c).mpr (hc ▸ hmem)
      match hq : findMag? v c with
      | some q => rfl
      | none => rw [hq] at this; exact absurd this (by simp)
    · rw [if_neg hc, if_neg hc]
  · rw [if_neg h]
    have hnmem : a.commodity ∉ v.map Amount.commodity := by
      intro hmem
      exact h ((any_commodity_iff v a.commodity).mpr hmem)
    have hndv : (v.map Amount.commodity).Nodup := vecWF_nodup hwf
    have hnd : ((v ++ [a]).map Amount.commodity).Nodup := by
      rw [List.map_append]
      simp only [List.map_cons, List.map_nil]
      rw [List.nodup_append]
      exact ⟨hndv, List.nodup_singleton _, by simpa using hnmem⟩
    rw [findMag?_perm (List.perm_insertionSort Amount.le (v ++ [a]))
        (((List.perm_insertionSort Amount.le (v ++ [a])).map Amount.commodity).nodup_iff.mpr hnd) c,
      findMag?_append]
    by_cases hc : c = a.commodity
    · have : findMag? v c = none := by
        match hq : findMag? v c with
        | none => rfl
        | some q =>
          have := (findMag?_isSome v c).mp (by rw [hq]; rfl)
          exact absurd (hc ▸ this) hnmem
      rw [this, if_pos hc]
      simp only [findMag?]
      rw [if_pos hc.symm]
      simp
    · rw [if_neg hc]
      simp only [findMag?]
      rw [if_neg (fun e => hc e.symm)]
      match hq : findMag? v c with
      | some q => rfl
      | none => rfl

theorem addToVec_nil (a : Amount) : addToVec [] a = [a] := by
  simp [addToVec, List.insertionSort, List.orderedInsert]

theorem vecWF_addToVec {v : List Amount} (hwf : vecWF v) (a : Amount) :
    vecWF (addToVec v a) := by
  unfold addToVec
  by_cases h : v.any (fun am => am.commodity == a.commodity) = true
  · rw [if_pos h]
    unfold vecWF at *
    have hv : ((updateFirst v a).map Amount.commodity).Pairwise stringLt := by
      rw [map_commodity_updateFirst]
      exact List.pairwise_map.mpr hwf
    exact List.pairwise_map.mp hv
  · rw [if_neg h]
    have hnmem : a.commodity ∉ v.map Amount.commodity := by
      intro hmem
      exact h ((any_commodity_iff v a.commodity).mpr hmem)
    have hnd : ((v ++ [a]).map Amount.commodity).Nodup := by
      rw [List.map_append]
      simp only [List.map_cons, List.map_nil]
      rw [List.nodup_append]
      exact ⟨vecWF_nodup hwf, List.nodup_singleton _, by simpa using hnmem⟩
    have hnds : ((List.insertionSort Amount.le (v ++ [a])).map Amount.commodity).Nodup :=
      ((List.perm_insertionSort Amount.le (v ++ [a])).map Amount.commodity).nodup_iff.mpr hnd
    have hsorted : (List.insertionSort Amount.le (v ++ [a])).Pairwise Amount.le :=
      List.sorted_insertionSort Amount.le (v ++ [a])
    have hne : (List.insertionSort Amount.le (v ++ [a])).Pairwise
        (fun x y : Amount => x.commodity ≠ y.commodity) := by
      rw [List.Nodup, List.pairwise_map] at hnds
      exact hnds
    exact (pairwise_combine hsorted hne).imp (fun hp => by
      rcases hp with ⟨hle | ⟨he, _⟩, hne2⟩
      · exact hle
      · exact absurd he hne2)

theorem findAmounts?_addChangeToMap (m : Changes) (acct : String) (a : Amount) (acct' : String) :
    findAmounts? (addChangeToMap m acct a) acct' =
      if acct' = acct then some (addToVec ((findAmounts? m acct).getD []) a)
      else findAmounts? m acct' := by
  induction m with
  | nil =>
    simp only [addChangeToMap, findAmounts?]
    by_cases hc : acct = acct'
    · rw [if_pos (by simpa using hc), if_pos hc.symm]
      simp [addToVec_nil]
    · rw [if_neg (by simpa using hc), if_neg (fun e => hc e.symm)]
  | cons kv rest ih =>
    simp only [addChangeToMap]
    by_cases hk : kv.1 = acct
    · rw [if_pos (by simpa using hk)]
      simp only [findAmounts?]
      by_cases hc : acct' = acct
      · rw [if_pos (by simpa using (hk.trans hc.symm)), if_pos hc,
          if_pos (by simpa using hk)]
        simp
      · rw [if_neg (by simpa using (fun e : kv.1 = acct' => hc (e.symm.trans hk))), if_neg hc,
          if_neg (by simpa using (fun e : kv.1 = acct' => hc (e.symm.trans hk)))]
    · rw [if_neg (by simpa using hk)]
      simp only [findAmounts?]
      by_cases hkc : kv.1 = acct'
      · rw [if_pos (by simpa using hkc), if_neg (fun e : acct' = acct => hk (hkc.trans e)),
          if_pos (by simpa using hkc)]
      · rw [if_neg (by simpa using hkc), ih]
        by_cases hac : acct' = acct
        · rw [if_pos hac, if_pos hac, if_neg (by simpa using hk)]
        · rw [if_neg hac, if_neg hac, if_neg (by simpa using hkc)]

theorem mem_keys_addChangeToMap (m : Changes) (acct : String) (a : Amount) (k : String) :
    k ∈ (addChangeToMap m acct a).map Prod.fst ↔ k ∈ m.map Prod.fst ∨ k = acct := by
  induction m with
  | nil => simp [addChangeToMap, eq_comm]
  | cons kv rest ih =>
    simp only [addChangeToMap]
    by_cases hk : kv.1 = acct
    · rw [if_pos (by simpa using hk)]
      simp only [List.map_cons, List.mem_cons]
      constructor
      · rintro (h | h)
        · exact Or.inl (Or.inl h)
        · exact Or.inl (Or.inr h)
      · rintro ((h | h) | h)
        · exact Or.inl h
        · exact Or.inr h
        · exact Or.inl (h.trans hk.symm)
    · rw [if_neg (by simpa using hk)]
      simp only [List.map_cons, List.mem_cons, ih]
      tauto

theorem nodup_keys_addChangeToMap (m : Changes) (acct : String) (a : Amount)
    (h : (m.map Prod.fst).Nodup) : ((addChangeToMap m acct a).map Prod.fst).Nodup := by
  induction m with
  | nil => simp [addChangeToMap]
  | cons kv rest ih =>
    simp only [List.map_cons, List.nodup_cons] at h
    simp only [addChangeToMap]
    by_cases hk : kv.1 = acct
    · rw [if_pos (by simpa using hk)]
      simp only [List.map_cons, List.nodup_cons]
      exact h
    · rw [if_neg (by simpa using hk)]
      simp only [List.map_cons, List.nodup_cons]
      refine ⟨?_, ih h.2⟩
      rw [mem_keys_addChangeToMap]
      rintro (hc | hc)
      · exact h.1 hc
      · exact hk hc

theorem vals_addChangeToMap {acct : String} {a : Amount} :
    ∀ {m : Changes}, (∀ kv ∈ m, vecWF kv.2) → ∀ kv ∈ addChangeToMap m acct a, vecWF kv.2 := by
  intro m
  induction m with
  | nil =>
    intro _ kv hkv
    simp only [addChangeToMap, List.mem_singleton] at hkv
    subst hkv
    exact List.pairwise_singleton _ _
  | cons kv0 rest ih =>
    intro hvals kv hkv
    simp only [addChangeToMap] at hkv
    by_cases hk : kv0.1 = acct
    · rw [if_pos (by simpa using hk)] at hkv
      rcases List.mem_cons.mp hkv with rfl | h'
      · exact vecWF_addToVec (hvals kv0 (List.mem_cons_self _ _)) a
      · exact hvals kv (List.mem_cons_of_mem _ h')
    · rw [if_neg (by simpa using hk)] at hkv
      rcases List.mem_cons.mp hkv with rfl | h'
      · exact hvals kv (List.mem_cons_self _ _)
      · exact ih (fun kv2 h2 => hvals kv2 (List.mem_cons_of_mem _ h2)) kv h'

theorem mapWF_addChangeToMap {m : Changes} (h : mapWF m) (acct : String) (a : Amount) :
    mapWF (addChangeToMap m acct a) :=
  ⟨nodup_keys_addChangeToMap m acct a h.1, vals_addChangeToMap h.2⟩

theorem findAmounts?_some_mem {m : Changes} {acct : String} {v : List Amount}
    (h : findAmounts? m acct = some v) : (acct, v) ∈ m := by
  induction m with
  | nil => simp [findAmounts?] at h
  | cons kv rest ih =>
    simp only [findAmounts?] at h
    by_cases hk : kv.1 = acct
    · rw [if_pos (by simpa using hk)] at h
      injection h with h
      have hkv : kv = (acct, v) := by
        obtain ⟨k1, k2⟩ := kv
        simp only at hk h
        rw [hk, h]
      rw [← hkv]
      exact List.mem_cons_self _ _
    · rw [if_neg (by simpa using hk)] at h
      exact List.mem_cons_of_mem _ (ih h)

theorem findAmounts?_isSome (m : Changes) (acct : String) :
    (findAmounts? m acct).isSome = true ↔ acct ∈ m.map Prod.fst := by
  induction m with
  | nil => simp [findAmounts?]
  | cons kv rest ih =>
    simp only [findAmounts?, List.map_cons, List.mem_cons]
    by_cases hk : kv.1 = acct
    · rw [if_pos (by simpa using hk)]
      simp [hk]
    · rw [if_neg (by simpa using hk)]
      rw [ih]
      constructor
      · exact Or.inr
      · rintro (h | h)
        · exact absurd h.symm hk
        · exact h

theorem storedMag_eq_getD (m : Changes) (acct c : String) :
    storedMag m acct c = findMag? ((findAmounts? m acct).getD []) c := by
  unfold storedMag
  match findAmounts? m acct with
  | some v => rfl
  | none => rfl

theorem vecWF_getD {m : Changes} (hwf : mapWF m) (acct : String) :
    vecWF ((findAmounts? m acct).getD []) := by
  match hfa : findAmounts? m acct with
  | some v =>
    simp only [Option.getD_some]
    exact hwf.2 (acct, v) (findAmounts?_some_mem hfa)
  | none =>
    simp only [Option.getD_none]
    exact List.Pairwise.nil

theorem storedMag_addChangeToMap {m : Changes} (hwf : mapWF m) (acct : String) (a : Amount)
    (acct' c : String) :
    storedMag (addChangeToMap m acct a) acct' c =
      if acct' = acct ∧ c = a.commodity then some ((storedMag m acct c).getD 0 + a.magnitude)
      else storedMag m acct' c := by
  rw [storedMag_eq_getD, findAmounts?_addChangeToMap]
  by_cases h1 : acct' = acct
  · rw [if_pos h1]
    simp only [Option.getD_some]
    rw [findMag?_addToVec (vecWF_getD hwf acct) a c]
    by_cases h2 : c = a.commodity
    · rw [if_pos h2, if_pos ⟨h1, h2⟩, storedMag_eq_getD]
    · rw [if_neg h2, if_neg (fun hp => h2 hp.2), h1, storedMag_eq_getD]
  · rw [if_neg h1, if_neg (fun hp => h1 hp.1), storedMag_eq_getD]

/-- A sequence of `SimpleChange(account, amount)` operations, applied in
arrival order. -/
def applySimples (tx : Transaction) (ops : List (String × Amount)) : Transaction :=
  applyOps tx (ops.map (fun p => Operation.addSimpleChange p.1 p.2))

/-- The operations of a sequence that touch the (account, commodity) pair. -/
def opsFor (acct c : String) (ops : List (String × Amount)) : List (String × Amount) :=
  ops.filter (fun p => p.1 == acct && p.2.commodity == c)

/-- Algebraic sum of the amounts of a sequence of simple changes. -/
def sumOps (ops : List (String × Amount)) : ℚ :=
  (ops.map (fun p => p.2.magnitude)).sum

theorem applySimples_nil (tx : Transaction) : applySimples tx [] = tx := rfl

theorem applySimples_cons (tx : Transaction) (p : String × Amount) (ops : List (String × Amount)) :
    applySimples tx (p :: ops) = applySimples (tx.add_change p.1 p.2) ops := rfl

theorem sumOps_cons (p : String × Amount) (l : List (String × Amount)) :
    sumOps (p :: l) = p.2.magnitude + sumOps l := by
  simp [sumOps]

theorem mapWF_new (d : Date) (desc : String) : mapWF (Transaction.new d desc).changes := by
  constructor
  · simp [Transaction.new]
  · intro kv hkv
    simp [Transaction.new] at hkv

theorem mapWF_add_change {tx : Transaction} (h : mapWF tx.changes) (acct : String) (a : Amount) :
    mapWF (tx.add_change acct a).changes :=
  mapWF_addChangeToMap h acct a

theorem mapWF_neg_foldl (bl : List Amount) {tx : Transaction} (h : mapWF tx.changes)
    (acct : String) :
    mapWF ((bl.foldl (fun t a => t.add_change acct ⟨a.commodity, -a.magnitude⟩) tx)).changes := by
  induction bl generalizing tx with
  | nil => exact h
  | cons a rest ih =>
    exact ih (mapWF_add_change h acct ⟨a.commodity, -a.magnitude⟩)

theorem mapWF_add_to_transation {tx : Transaction} (h : mapWF tx.changes) (op : Operation) :
    mapWF (op.add_to_transation tx).changes := by
  cases op with
  | addSimpleChange acct a => exact mapWF_add_change h acct a
  | addSplitChange a1 a2 a =>
    exact mapWF_add_change (mapWF_add_change h a1 _) a2 _
  | finalize acct => exact mapWF_neg_foldl tx.balance h acct

theorem mapWF_applyOps {tx : Transaction} (h : mapWF tx.changes) (ops : List Operation) :
    mapWF (applyOps tx ops).changes := by
  induction ops generalizing tx with
  | nil => exact h
  | cons op rest ih => exact ih (mapWF_add_to_transation h op)

theorem mapWF_applySimples {tx : Transaction} (h : mapWF tx.changes)
    (ops : List (String × Amount)) : mapWF (applySimples tx ops).changes :=
  mapWF_applyOps h _

theorem storedMag_applySimples (ops : List (String × Amount)) {tx : Transaction}
    (hwf : mapWF tx.changes) (acct c : String) :
    storedMag (applySimples tx ops).changes acct c =
      match storedMag tx.changes acct c with
      | some q => some (q + sumOps (opsFor acct c ops))
      | none =>
        if opsFor acct c ops = [] then none else some (sumOps (opsFor acct c ops)) := by
  induction ops generalizing tx with
  | nil =>
    cases hs : storedMag tx.changes acct c with
    | some q =>
      simp [applySimples, applyOps, opsFor, sumOps]
      exact hs
    | none =>
      simp [applySimples, applyOps, opsFor, sumOps]
      exact hs
  | cons p ops ih =>
    rw [applySimples_cons, ih (mapWF_add_change hwf p.1 p.2)]
    have hstep : storedMag (tx.add_change p.1 p.2).changes acct c =
        if acct = p.1 ∧ c = p.2.commodity
        then some ((storedMag tx.changes p.1 c).getD 0 + p.2.magnitude)
        else storedMag tx.changes acct c := by
      simp only [Transaction.add_change]
      exact storedMag_addChangeToMap hwf p.1 p.2 acct c
    by_cases hcond : acct = p.1 ∧ c = p.2.commodity
    · rw [if_pos hcond] at hstep
      have hfilter : opsFor acct c (p :: ops) = p :: opsFor acct c ops := by
        unfold opsFor
        rw [List.filter_cons_of_pos]
        simp only [Bool.and_eq_true, beq_iff_eq]
        exact ⟨hcond.1.symm, hcond.2.symm⟩
      rw [hstep, hfilter, hcond.1]
      cases hs : storedMag tx.changes p.1 c with
      | some q =>
        simp only [Option.getD_some, sumOps_cons]
        ring_nf
      | none =>
        simp only [Option.getD_none, sumOps_cons]
        have : ¬ (p :: opsFor p.1 c ops) = [] := by simp
        rw [if_neg this]
        ring_nf
    · have hfilter : opsFor acct c (p :: ops) = opsFor acct c ops := by
        unfold opsFor
        rw [List.filter_cons_of_neg]
        simp only [Bool.and_eq_true, beq_iff_eq, not_and]
        intro h1 h2
        exact hcond ⟨h1.symm, h2.symm⟩
      rw [if_neg hcond] at hstep
      rw [hstep, hfilter]

theorem mem_keys_applySimples (ops : List (String × Amount)) (tx : Transaction) (k : String) :
    k ∈ (applySimples tx ops).changes.map Prod.fst ↔
      k ∈ tx.changes.map Prod.fst ∨ k ∈ ops.map Prod.fst := by
  induction ops generalizing tx with
  | nil => simp [applySimples, applyOps]
  | cons p ops ih =>
    rw [applySimples_cons, ih]
    simp only [Transaction.add_change]
    rw [mem_keys_addChangeToMap]
    simp only [List.map_cons, List.mem_cons]
    tauto

theorem findAmounts?_of_mem {m : Changes} (hnd : (m.map Prod.fst).Nodup) {acct : String}
    {v : List Amount} (h : (acct, v) ∈ m) : findAmounts? m acct = some v := by
  induction m with
  | nil => simp at h
  | cons kv rest ih =>
    simp only [List.map_cons, List.nodup_cons] at hnd
    rcases List.mem_cons.mp h with rfl | h'
    · simp [findAmounts?]
    · have hk : kv.1 ≠ acct := by
        rintro rfl
        exact hnd.1 (List.mem_map.mpr ⟨(kv.1, v), h', rfl⟩)
      simp only [findAmounts?]
      rw [if_neg (by simpa using hk)]
      exact ih hnd.2 h'

theorem storedMag_of_mem {m : Changes} (hwf : mapWF m) {acct : String} {v : List Amount}
    (hv : (acct, v) ∈ m) {am : Amount} (ham : am ∈ v) :
    storedMag m acct am.commodity = some am.magnitude := by
  unfold storedMag
  rw [findAmounts?_of_mem hwf.1 hv]
  exact findMag?_of_mem (vecWF_nodup (hwf.2 (acct, v) hv)) (by cases am; exact ham)

theorem vecWF_ext {v w : List Amount} (hv : vecWF v) (hw : vecWF w)
    (h : ∀ c, findMag? v c = findMag? w c) : v = w := by
  have hmem : ∀ am : Amount, am ∈ v ↔ am ∈ w := by
    intro am
    constructor
    · intro hm
      have h1 : findMag? v am.commodity = some am.magnitude :=
        findMag?_of_mem (vecWF_nodup hv) (by cases am; exact hm)
      rw [h] at h1
      have h2 := findMag?_mem h1
      cases am
      exact h2
    · intro hm
      have h1 : findMag? w am.commodity = some am.magnitude :=
        findMag?_of_mem (vecWF_nodup hw) (by cases am; exact hm)
      rw [← h] at h1
      have h2 := findMag?_mem h1
      cases am
      exact h2
  have hndv : v.Nodup := List.Nodup.of_map Amount.commodity (vecWF_nodup hv)
  have hndw : w.Nodup := List.Nodup.of_map Amount.commodity (vecWF_nodup hw)
  have hperm : v.Perm w := (List.perm_ext_iff_of_nodup hndv hndw).mpr hmem
  have hsv : v.Sorted Amount.le := hv.imp (fun hp => Or.inl hp)
  have hsw : w.Sorted Amount.le := hw.imp (fun hp => Or.inl hp)
  exact List.eq_of_perm_of_sorted hperm hsv hsw

theorem storedMag_applySimples_fresh (d : Date) (desc : String)
    (ops : List (String × Amount)) (acct c : String) :
    storedMag (applySimples (Transaction.new d desc) ops).changes acct c =
      if opsFor acct c ops = [] then none else some (sumOps (opsFor acct c ops)) := by
  rw [storedMag_applySimples ops (mapWF_new d desc) acct c]
  rfl

theorem applySimples_perm_lookup {ops1 ops2 : List (String × Amount)} (hperm : ops1.Perm ops2)
    (d : Date) (desc : String) (acct : String) :
    findAmounts? (applySimples (Transaction.new d desc) ops1).changes acct =
      findAmounts? (applySimples (Transaction.new d desc) ops2).changes acct := by
  have hwf1 := mapWF_applySimples (mapWF_new d desc) ops1
  have hwf2 := mapWF_applySimples (mapWF_new d desc) ops2
  have hkeys : ∀ ops : List (String × Amount),
      (findAmounts? (applySimples (Transaction.new d desc) ops).changes acct).isSome = true ↔
        acct ∈ ops.map Prod.fst := by
    intro ops
    rw [findAmounts?_isSome, mem_keys_applySimples]
    simp [Transaction.new]
  match h1 : findAmounts? (applySimples (Transaction.new d desc) ops1).changes acct,
      h2 : findAmounts? (applySimples (Transaction.new d desc) ops2).changes acct with
  | none, none => rfl
  | some v1, none =>
    have hmem1 : acct ∈ ops1.map Prod.fst := (hkeys ops1).mp (by rw [h1]; rfl)
    have hmem2 : acct ∈ ops2.map Prod.fst := (hperm.map Prod.fst).mem_iff.mp hmem1
    have := (hkeys ops2).mpr hmem2
    rw [h2] at this
    exact absurd this (by simp)
  | none, some v2 =>
    have hmem2 : acct ∈ ops2.map Prod.fst := (hkeys ops2).mp (by rw [h2]; rfl)
    have hmem1 : acct ∈ ops1.map Prod.fst := (hperm.map Prod.fst).mem_iff.mpr hmem2
    have := (hkeys ops1).mpr hmem1
    rw [h1] at this
    exact absurd this (by simp)
  | some v1, some v2 =>
    have hv1 : vecWF v1 := hwf1.2 (acct, v1) (findAmounts?_some_mem h1)
    have hv2 : vecWF v2 := hwf2.2 (acct, v2) (findAmounts?_some_mem h2)
    have hmg : ∀ c, findMag? v1 c = findMag? v2 c := by
      intro c
      have e1 : findMag? v1 c =
          storedMag (applySimples (Transaction.new d desc) ops1).changes acct c := by
        unfold storedMag
        rw [h1]
      have e2 : findMag? v2 c =
          storedMag (applySimples (Transaction.new d desc) ops2).changes acct c := by
        unfold storedMag
        rw [h2]
      rw [e1, e2, storedMag_applySimples_fresh, storedMag_applySimples_fresh]
      have hpf : (opsFor acct c ops1).Perm (opsFor acct c ops2) := hperm.filter _
      have hnil : opsFor acct c ops1 = [] ↔ opsFor acct c ops2 = [] := by
        rw [← List.length_eq_zero, ← List.length_eq_zero, hpf.length_eq]
      have hsum : sumOps (opsFor acct c ops1) = sumOps (opsFor acct c ops2) :=
        (hpf.map _).sum_eq
      by_cases hn : opsFor acct c ops1 = []
      · rw [if_pos hn, if_pos (hnil.mp hn)]
      · rw [if_neg hn, if_neg (fun e => hn (hnil.mpr e)), hsum]
    rw [vecWF_ext hv1 hv2 hmg]

theorem mem_commodity_addToVec (v : List Amount) (a : Amount) (c : String) :
    c ∈ (addToVec v a).map Amount.commodity ↔
      c ∈ v.map Amount.commodity ∨ c = a.commodity := by
  unfold addToVec
  by_cases h : v.any (fun am => am.commodity == a.commodity) = true
  · rw [if_pos h, map_commodity_updateFirst]
    have hmem := (any_commodity_iff v a.commodity).mp h
    constructor
    · exact Or.inl
    · rintro (hc | rfl)
      · exact hc
      · exact hmem
  · rw [if_neg h,
      ((List.perm_insertionSort Amount.le (v ++ [a])).map Amount.commodity).mem_iff,
      List.map_append]
    simp [List.mem_append]

theorem mem_commodity_addChangeToMap (m : Changes) (acct : String) (a : Amount) (c : String) :
    c ∈ (amountsOf (addChangeToMap m acct a)).map Amount.commodity ↔
      c ∈ (amountsOf m).map Amount.commodity ∨ c = a.commodity := by
  induction m with
  | nil => simp [addChangeToMap, amountsOf]
  | cons kv rest ih =>
    simp only [addChangeToMap]
    by_cases hk : kv.1 = acct
    · rw [if_pos (by simpa using hk)]
      simp only [amountsOf, List.map_append, List.mem_append]
      rw [mem_commodity_addToVec]
      tauto
    · rw [if_neg (by simpa using hk)]
      simp only [amountsOf, List.map_append, List.mem_append]
      rw [ih]
      tauto

theorem mem_commodity_neg_foldl (bl : List Amount) {tx : Transaction} {c : String}
    (h : c ∈ (amountsOf tx.changes).map Amount.commodity) (acct : String) :
    c ∈ (amountsOf ((bl.foldl (fun t a => t.add_change acct ⟨a.commodity, -a.magnitude⟩)
      tx)).changes).map Amount.commodity := by
  induction bl generalizing tx with
  | nil => exact h
  | cons b rest ih =>
    simp only [List.foldl_cons]
    apply ih
    simp only [Transaction.add_change]
    rw [mem_commodity_addChangeToMap]
    exact Or.inl h

theorem balance_commodity_nodup (tx : Transaction) :
    (tx.balance.map Amount.commodity).Nodup := by
  unfold Transaction.balance
  apply ((List.perm_insertionSort Amount.le _).map Amount.commodity).nodup_iff.mpr
  rw [List.map_map]
  have he : (Amount.commodity ∘ fun p : String × ℚ => (⟨p.1, p.2⟩ : Amount)) = Prod.fst := rfl
  rw [he]
  exact nodup_keys_balFold _ [] (by simp)

theorem storedMag_neg_foldl_untouched (bl : List Amount) {tx : Transaction}
    (hwf : mapWF tx.changes) (acct : String) {c : String}
    (hn : c ∉ bl.map Amount.commodity) (acct' : String) :
    storedMag ((bl.foldl (fun t a => t.add_change acct ⟨a.commodity, -a.magnitude⟩)
      tx)).changes acct' c = storedMag tx.changes acct' c := by
  induction bl generalizing tx with
  | nil => rfl
  | cons b rest ih =>
    simp only [List.map_cons, List.mem_cons] at hn
    push_neg at hn
    simp only [List.foldl_cons]
    rw [ih (mapWF_add_change hwf acct _) hn.2]
    have hstep := storedMag_addChangeToMap hwf acct ⟨b.commodity, -b.magnitude⟩ acct' c
    simp only [Transaction.add_change]
    rw [hstep, if_neg]
    rintro ⟨-, h2⟩
    exact hn.1 h2

theorem storedMag_neg_foldl (bl : List Amount) {tx : Transaction} (hwf : mapWF tx.changes)
    (acct : String) (hnd : (bl.map Amount.commodity).Nodup) :
    ∀ am ∈ bl,
      storedMag ((bl.foldl (fun t a => t.add_change acct ⟨a.commodity, -a.magnitude⟩)
        tx)).changes acct am.commodity =
        some ((storedMag tx.changes acct am.commodity).getD 0 - am.magnitude) := by
  induction bl generalizing tx with
  | nil =>
    intro am h
    simp at h
  | cons b rest ih =>
    intro am ham
    simp only [List.map_cons, List.nodup_cons] at hnd
    simp only [List.foldl_cons]
    rcases List.mem_cons.mp ham with rfl | ham'
    · rw [storedMag_neg_foldl_untouched rest (mapWF_add_change hwf acct _) acct hnd.1 acct]
      have hstep := storedMag_addChangeToMap hwf acct ⟨am.commodity, -am.magnitude⟩ acct
        am.commodity
      simp only [Transaction.add_change]
      rw [hstep, if_pos ⟨rfl, rfl⟩, sub_eq_add_neg]
    · have hne : am.commodity ≠ b.commodity := by
        intro e
        exact hnd.1 (e ▸ List.mem_map.mpr ⟨am, ham', rfl⟩)
      have hunch : storedMag (tx.add_change acct ⟨b.commodity, -b.magnitude⟩).changes acct
          am.commodity = storedMag tx.changes acct am.commodity := by
        have hstep := storedMag_addChangeToMap hwf acct ⟨b.commodity, -b.magnitude⟩ acct
          am.commodity
        simp only [Transaction.add_change]
        rw [hstep, if_neg]
        rintro ⟨-, h2⟩
        exact hne h2
      rw [ih (mapWF_add_change hwf acct _) hnd.2 am ham', hunch]

/-- C1: for every transaction built from a header and any prior sequence of
operations, `finalize(account)` adds, for each commodity of `balance()`, the
negated balance to `account` (third conjunct), and immediately afterwards
`balance()` is the all-zero vector (first conjunct) covering every commodity
that appeared anywhere in the transaction (second conjunct). -/
theorem c1_finalize_zeroes (d : Date) (desc : String) (ops : List Operation) (account : String) :
    (∀ am ∈ ((applyOps (Transaction.new d desc) ops).finalize account).balance,
      am.magnitude = 0) ∧
    (∀ c, c ∈ (amountsOf (applyOps (Transaction.new d desc) ops).changes).map Amount.commodity →
      c ∈ ((applyOps (Transaction.new d desc) ops).finalize account).balance.map
        Amount.commodity) ∧
    (∀ am ∈ (applyOps (Transaction.new d desc) ops).balance,
      storedMag ((applyOps (Transaction.new d desc) ops).finalize account).changes account
          am.commodity =
        some ((storedMag (applyOps (Transaction.new d desc) ops).changes account
          am.commodity).getD 0 - am.magnitude)) := by
  refine ⟨?_, ?_, ?_⟩
  · intro am ham
    rw [balance_mag _ ham, balAt_finalize]
  · intro c hc
    rw [balance_commodities]
    unfold Transaction.finalize
    exact mem_commodity_neg_foldl _ hc account
  · intro am ham
    have hwf := mapWF_applyOps (mapWF_new d desc) ops
    unfold Transaction.finalize
    exact storedMag_neg_foldl _ hwf account
      (balance_commodity_nodup (applyOps (Transaction.new d desc) ops)) am ham

theorem c1_finalize_zeroes_witness :
    ((⟨"E", (0 : ℚ)⟩ : Amount).magnitude = 0) ∧
    ("E" ∈ ((applyOps (Transaction.new ⟨2020, 1, 10⟩ "T")
        [.addSimpleChange "A" ⟨"E", 5⟩]).finalize "B").balance.map Amount.commodity) ∧
    (storedMag ((applyOps (Transaction.new ⟨2020, 1, 10⟩ "T")
          [.addSimpleChange "A" ⟨"E", 5⟩]).finalize "B").changes "B" "E" =
      some ((storedMag (applyOps (Transaction.new ⟨2020, 1, 10⟩ "T")
          [.addSimpleChange "A" ⟨"E", 5⟩]).changes "B" "E").getD 0 - 5)) :=
  ⟨(c1_finalize_zeroes ⟨2020, 1, 10⟩ "T" [.addSimpleChange "A" ⟨"E", 5⟩] "B").1
      ⟨"E", 0⟩ (by decide),
    (c1_finalize_zeroes ⟨2020, 1, 10⟩ "T" [.addSimpleChange "A" ⟨"E", 5⟩] "B").2.1
      "E" (by decide),
    (c1_finalize_zeroes ⟨2020, 1, 10⟩ "T" [.addSimpleChange "A" ⟨"E", 5⟩] "B").2.2
      ⟨"E", 5⟩ (by decide)⟩

/-- C7 counterexample: applying `SplitChange(A, B, 2)` to a fresh transaction
and reversing it with `SimpleChange(A, -1)` and `SimpleChange(B, -1)` does
not give back the fresh transaction: both accounts keep a zero-magnitude
entry for the commodity, so the changes map is not empty. -/
theorem c7_split_reverse_cex :
    ((((Transaction.new ⟨2020, 1, 10⟩ "T").add_split_change "A" "B" ⟨"E", 2⟩).add_change "A"
        ⟨"E", -1⟩).add_change "B" ⟨"E", -1⟩).changes =
      [("A", [⟨"E", 0⟩]), ("B", [⟨"E", 0⟩])] ∧
    (((Transaction.new ⟨2020, 1, 10⟩ "T").add_split_change "A" "B" ⟨"E", 2⟩).add_change "A"
        ⟨"E", -1⟩).add_change "B" ⟨"E", -1⟩ ≠ Transaction.new ⟨2020, 1, 10⟩ "T" := by
  constructor
  · decide
  · decide

/-- C7 (amended): `SplitChange(A, B, amount)` reversed by
`SimpleChange(A, -amount/2)` and `SimpleChange(B, -amount/2)` yields a
transaction in which every stored magnitude is zero; the zeroed change
entries remain in place, so the transaction is not structurally equal to the
fresh one. -/
theorem c7_split_reverse_zeroes (d : Date) (desc A B c : String) (m : ℚ) :
    ∀ kv ∈ ((((Transaction.new d desc).add_split_change A B ⟨c, m⟩).add_change A
        ⟨c, -(m / 2)⟩).add_change B ⟨c, -(m / 2)⟩).changes,
      ∀ am ∈ kv.2, am.magnitude = 0 := by
  intro kv hkv am ham
  have he : (((Transaction.new d desc).add_split_change A B ⟨c, m⟩).add_change A
      ⟨c, -(m / 2)⟩).add_change B ⟨c, -(m / 2)⟩ =
      applySimples (Transaction.new d desc)
        [(A, ⟨c, m / 2⟩), (B, ⟨c, m / 2⟩), (A, ⟨c, -(m / 2)⟩), (B, ⟨c, -(m / 2)⟩)] := rfl
  rw [he] at hkv
  obtain ⟨acct0, v0⟩ := kv
  have hwf := mapWF_applySimples (mapWF_new d desc)
    [(A, ⟨c, m / 2⟩), (B, ⟨c, m / 2⟩), (A, ⟨c, -(m / 2)⟩), (B, ⟨c, -(m / 2)⟩)]
  have hsm := storedMag_of_mem hwf hkv ham
  rw [storedMag_applySimples_fresh] at hsm
  by_cases hn : opsFor acct0 am.commodity
      [(A, ⟨c, m / 2⟩), (B, ⟨c, m / 2⟩), (A, ⟨c, -(m / 2)⟩), (B, ⟨c, -(m / 2)⟩)] = []
  · rw [if_pos hn] at hsm
    exact absurd hsm (by simp)
  · rw [if_neg hn] at hsm
    injection hsm with hsm
    rw [← hsm]
    unfold opsFor sumOps
    by_cases hA : A = acct0 <;> by_cases hB : B = acct0 <;> by_cases hc : c = am.commodity <;>
      simp [List.filter_cons, hA, hB, hc]

theorem c7_split_reverse_zeroes_witness :
    (("A", [(⟨"E", (0 : ℚ)⟩ : Amount)]) ∈
      ((((Transaction.new ⟨2020, 1, 10⟩ "T").add_split_change "A" "B" ⟨"E", 2⟩).add_change "A"
        ⟨"E", -(2 / 2)⟩).add_change "B" ⟨"E", -(2 / 2)⟩).changes) ∧
    (⟨"E", (0 : ℚ)⟩ : Amount).magnitude = 0 :=
  ⟨by decide,
    c7_split_reverse_zeroes ⟨2020, 1, 10⟩ "T" "A" "B" "E" 2 ("A", [⟨"E", 0⟩]) (by decide)
      ⟨"E", 0⟩ (by decide)⟩

/-- C8: on a fresh transaction, a sequence of `SimpleChange` operations
stores, for each (account, commodity) pair that occurs in the sequence,
exactly the algebraic sum of its amounts (and stores nothing for pairs that
do not occur); and any permutation of the sequence produces the same changes
mapping, compared as a map, i.e. under every account lookup. -/
theorem c8_simple_changes_sum_perm (d : Date) (desc : String)
    (ops1 ops2 : List (String × Amount)) (hperm : ops1.Perm ops2) :
    (∀ acct c : String,
      storedMag (applySimples (Transaction.new d desc) ops1).changes acct c =
        if opsFor acct c ops1 = [] then none else some (sumOps (opsFor acct c ops1))) ∧
    (∀ acct : String,
      findAmounts? (applySimples (Transaction.new d desc) ops1).changes acct =
        findAmounts? (applySimples (Transaction.new d desc) ops2).changes acct) :=
  ⟨fun acct c => storedMag_applySimples_fresh d desc ops1 acct c,
    fun acct => applySimples_perm_lookup hperm d desc acct⟩

theorem c8_simple_changes_sum_perm_witness :
    (storedMag (applySimples (Transaction.new ⟨2020, 1, 10⟩ "T")
        [("A", ⟨"E", 1⟩), ("B", ⟨"E", 2⟩)]).changes "A" "E" =
      if opsFor "A" "E" [("A", ⟨"E", 1⟩), ("B", ⟨"E", 2⟩)] = [] then none
      else some (sumOps (opsFor "A" "E" [("A", ⟨"E", 1⟩), ("B", ⟨"E", 2⟩)]))) ∧
    (findAmounts? (applySimples (Transaction.new ⟨2020, 1, 10⟩ "T")
        [("A", ⟨"E", 1⟩), ("B", ⟨"E", 2⟩)]).changes "A" =
      findAmounts? (applySimples (Transaction.new ⟨2020, 1, 10⟩ "T")
        [("B", ⟨"E", 2⟩), ("A", ⟨"E", 1⟩)]).changes "A") :=
  ⟨(c8_simple_changes_sum_perm ⟨2020, 1, 10⟩ "T" [("A", ⟨"E", 1⟩), ("B", ⟨"E", 2⟩)]
      [("B", ⟨"E", 2⟩), ("A", ⟨"E", 1⟩)] (List.Perm.swap _ _ _)).1
      "A" "E",
    (c8_simple_changes_sum_perm ⟨2020, 1, 10⟩ "T" [("A", ⟨"E", 1⟩), ("B", ⟨"E", 2⟩)]
      [("B", ⟨"E", 2⟩), ("A", ⟨"E", 1⟩)] (List.Perm.swap _ _ _)).2
      "A"⟩

/-- C9: every sequence of operations (simple, split, finalize) applied to a
fresh transaction keeps each account's vector strictly sorted by commodity —
hence one entry per distinct commodity — and adding an amount whose commodity
is already present sums the magnitudes in place: the commodity list is
unchanged, so no duplicate entry is ever created. -/
theorem c9_sorted_unique_invariant (d : Date) (desc : String) (ops : List Operation) :
    (∀ acct v, findAmounts? (applyOps (Transaction.new d desc) ops).changes acct = some v →
      v.Pairwise (fun a b : Amount => stringLt a.commodity b.commodity)) ∧
    (∀ (v : List Amount) (a : Amount) (q : ℚ), findMag? v a.commodity = some q →
      (addToVec v a).map Amount.commodity = v.map Amount.commodity ∧
      findMag? (addToVec v a) a.commodity = some (q + a.magnitude)) := by
  constructor
  · intro acct v hv
    have hwf := mapWF_applyOps (mapWF_new d desc) ops
    exact hwf.2 (acct, v) (findAmounts?_some_mem hv)
  · intro v a q hq
    have hmem : a.commodity ∈ v.map Amount.commodity := by
      rw [← findMag?_isSome]
      rw [hq]
      rfl
    have hany : v.any (fun am => am.commodity == a.commodity) = true :=
      (any_commodity_iff v a.commodity).mpr hmem
    constructor
    · unfold addToVec
      rw [if_pos hany]
      exact map_commodity_updateFirst v a
    · unfold addToVec
      rw [if_pos hany, findMag?_updateFirst, if_pos rfl, hq]
      rfl

theorem c9_sorted_unique_invariant_witness :
    (([⟨"E", (5 / 2 : ℚ)⟩, ⟨"USD", 3⟩] : List Amount).Pairwise
      (fun a b => stringLt a.commodity b.commodity)) ∧
    ((addToVec [⟨"E", 5⟩] ⟨"E", 2⟩).map Amount.commodity =
      ([(⟨"E", (5 : ℚ)⟩ : Amount)]).map Amount.commodity ∧
      findMag? (addToVec [⟨"E", 5⟩] ⟨"E", 2⟩) "E" = some (5 + 2)) :=
  ⟨(c9_sorted_unique_invariant ⟨2020, 1, 10⟩ "T"
      [.addSimpleChange "B" ⟨"USD", 3⟩, .addSplitChange "A" "B" ⟨"E", 5⟩, .finalize "C"]).1
      "B" [⟨"E", 5 / 2⟩, ⟨"USD", 3⟩] (by decide),
    (c9_sorted_unique_invariant ⟨2020, 1, 10⟩ "T" []).2 [⟨"E", 5⟩] ⟨"E", 2⟩ 5 (by decide)⟩

/-- Fields the parser must have filled in each state so that `operation()`
can be built at `EOL` (the source `unwrap`s them). -/
def parserInv (p : Parser) : Prop :=
  match p.next with
  | .operation => True
  | .account => p.op_type.isSome = true
  | .currency => p.op_type.isSome = true ∧ p.accounts ≠ [] ∧
      (p.op_type = some .addSplit → 2 ≤ p.accounts.length)
  | .amount => p.op_type.isSome = true ∧ p.accounts ≠ [] ∧
      (p.op_type = some .addSplit → 2 ≤ p.accounts.length) ∧ p.currency.isSome = true
  | .eol => p.op_type.isSome = true ∧ p.accounts ≠ [] ∧
      (p.op_type = some .addSplit → 2 ≤ p.accounts.length) ∧
      ((p.op_type = some .addSimple ∨ p.op_type = some .addSplit) →
        p.currency.isSome = true ∧ p.amount.isSome = true)

theorem parserInv_new : parserInv Parser.new := trivial

theorem parserInv_step {p : Parser} (h : parserInv p) (w : String) {p' : Parser}
    (hs : p.parse_word w = .ok p') : parserInv p' := by
  obtain ⟨nx, ot, ac, cu, amt⟩ := p
  cases nx with
  | operation =>
    unfold Parser.parse_word Parser.parse_op_type at hs
    cases hot : OperationType.parse w with
    | some t =>
      rw [hot] at hs
      injection hs with hs
      subst hs
      exact rfl
    | none =>
      rw [hot] at hs
      exact absurd hs (by simp)
  | account =>
    replace h : ot.isSome = true := h
    unfold Parser.parse_word Parser.parse_account at hs
    by_cases hv : isValidAccount w
    · rw [if_pos hv] at hs
      by_cases h1 : ot = some OperationType.addSplit ∧ (ac ++ [w]).length = 1
      · rw [if_pos h1] at hs
        injection hs with hs
        subst hs
        exact h
      · rw [if_neg h1] at hs
        by_cases h2 : ot = some OperationType.finalize
        · rw [if_pos h2] at hs
          injection hs with hs
          subst hs
          refine ⟨h, by simp, ?_, ?_⟩
          · intro he
            rw [h2] at he
            exact absurd (Option.some.inj he) (by intro hx; cases hx)
          · rintro (he | he) <;> rw [h2] at he <;>
              exact absurd (Option.some.inj he) (by intro hx; cases hx)
        · rw [if_neg h2] at hs
          injection hs with hs
          subst hs
          refine ⟨h, by simp, ?_⟩
          intro he
          have hlen : (ac ++ [w]).length ≠ 1 := fun e => h1 ⟨he, e⟩
          show 2 ≤ (ac ++ [w]).length
          rw [List.length_append, List.length_singleton] at hlen ⊢
          omega
    · rw [if_neg hv] at hs
      exact absurd hs (by simp)
  | currency =>
    obtain ⟨h1, h2, h3⟩ := h
    unfold Parser.parse_word Parser.parse_currency at hs
    by_cases hv : isValidCurrency w
    · rw [if_pos hv] at hs
      injection hs with hs
      subst hs
      exact ⟨h1, h2, h3, rfl⟩
    · rw [if_neg hv] at hs
      exact absurd hs (by simp)
  | amount =>
    obtain ⟨h1, h2, h3, h4⟩ := h
    unfold Parser.parse_word Parser.parse_amount at hs
    cases hq : parseDecimal w with
    | some q =>
      rw [hq] at hs
      injection hs with hs
      subst hs
      exact ⟨h1, h2, h3, fun _ => ⟨h4, rfl⟩⟩
    | none =>
      rw [hq] at hs
      exact absurd hs (by simp)
  | eol =>
    unfold Parser.parse_word at hs
    exact absurd hs (by simp)

theorem parserInv_runWords (p : Parser) (h : parserInv p) (ws : List String) :
    parserInv (runWords p ws) := by
  induction ws generalizing p with
  | nil => exact h
  | cons w ws ih =>
    simp only [runWords, List.foldl_cons]
    cases hw : p.parse_word w with
    | ok p' => exact ih p' (parserInv_step h w hw)
    | error e => exact ih p h

theorem parser_eol_operation_isSome {p : Parser} (h : parserInv p)
    (he : p.next = TokenType.eol) : (p.operation).isSome = true := by
  obtain ⟨nx, ot, ac, cu, amt⟩ := p
  replace he : nx = TokenType.eol := he
  subst he
  obtain ⟨h1, h2, h3, h4⟩ := h
  unfold Parser.operation
  rw [if_neg (by simp)]
  cases ot with
  | none => exact absurd h1 (by simp)
  | some t =>
    cases t with
    | addSimple =>
      obtain ⟨hcu, hamt⟩ := h4 (Or.inl rfl)
      cases ac with
      | nil => exact absurd rfl h2
      | cons a rest =>
        cases cu with
        | none => exact absurd hcu (by simp)
        | some c =>
          cases amt with
          | none => exact absurd hamt (by simp)
          | some m => rfl
    | addSplit =>
      obtain ⟨hcu, hamt⟩ := h4 (Or.inr rfl)
      have hlen := h3 rfl
      cases ac with
      | nil => exact absurd rfl h2
      | cons a1 rest =>
        cases rest with
        | nil => simp at hlen
        | cons a2 rest2 =>
          cases cu with
          | none => exact absurd hcu (by simp)
          | some c =>
            cases amt with
            | none => exact absurd hamt (by simp)
            | some m => rfl
    | finalize =>
      cases ac with
      | nil => exact absurd rfl h2
      | cons a rest => rfl

/-- C4 counterexample: the line `a 1bad Food USD 5` contains the word `1bad`,
which fails to parse in the state reached after `a`; yet processing the line
applies an operation built from the remaining words, so the transaction's
changes mapping does change. -/
theorem c4_error_skip_cex :
    isErr (Parser.parse_word (runWords Parser.new ["a"]) "1bad") = true ∧
    (TUIController.parse_change (Transaction.new ⟨2020, 1, 10⟩ "T")
        "a 1bad Food USD 5").changes = [("Food", [⟨"USD", 5⟩])] ∧
    (Transaction.new ⟨2020, 1, 10⟩ "T").changes = [] := by
  refine ⟨by decide, by decide, by decide⟩

/-- C4 (amended): a failing word is reported and skipped — the parser keeps
its state and continues with the remaining words (first conjunct); no
operation is applied unless the surviving words drive the parser exactly to
`EOL`, in which case the transaction stays unchanged (second conjunct); and
when they do reach `EOL`, exactly the operation built from the successfully
parsed words is applied (third conjunct). -/
theorem c4_error_word_skipped (tx : Transaction) (line : String) :
    (∀ (p : Parser) (w : String) (ws : List String), isErr (p.parse_word w) = true →
      runWords p (w :: ws) = runWords p ws) ∧
    ((runWords Parser.new (splitAsciiWhitespace line)).next ≠ TokenType.eol →
      TUIController.parse_change tx line = tx) ∧
    (line ≠ "" → (runWords Parser.new (splitAsciiWhitespace line)).next = TokenType.eol →
      ∃ op, (runWords Parser.new (splitAsciiWhitespace line)).operation = some op ∧
        TUIController.parse_change tx line = op.add_to_transation tx) := by
  refine ⟨?_, ?_, ?_⟩
  · intro p w ws herr
    simp only [runWords, List.foldl_cons]
    cases hw : p.parse_word w with
    | ok p' =>
      rw [hw] at herr
      exact absurd herr (by simp [isErr])
    | error e => rfl
  · intro hne
    unfold TUIController.parse_change
    by_cases h0 : line = ""
    · rw [if_pos h0]
    · rw [if_neg h0, if_neg hne]
  · intro h0 heol
    have hinv := parserInv_runWords Parser.new parserInv_new (splitAsciiWhitespace line)
    have hsome := parser_eol_operation_isSome hinv heol
    cases hop : (runWords Parser.new (splitAsciiWhitespace line)).operation with
    | none =>
      rw [hop] at hsome
      exact absurd hsome (by simp)
    | some op =>
      refine ⟨op, rfl, ?_⟩
      unfold TUIController.parse_change
      rw [if_neg h0, if_pos heol, hop]

theorem c4_error_word_skipped_witness :
    (runWords Parser.new ("x" :: ["a", "Food", "USD", "5"]) =
      runWords Parser.new ["a", "Food", "USD", "5"]) ∧
    (TUIController.parse_change (Transaction.new ⟨2020, 1, 10⟩ "T") "a Food" =
      Transaction.new ⟨2020, 1, 10⟩ "T") ∧
    (∃ op, (runWords Parser.new (splitAsciiWhitespace "a Food USD 5")).operation = some op ∧
      TUIController.parse_change (Transaction.new ⟨2020, 1, 10⟩ "T") "a Food USD 5" =
        op.add_to_transation (Transaction.new ⟨2020, 1, 10⟩ "T")) :=
  ⟨(c4_error_word_skipped (Transaction.new ⟨2020, 1, 10⟩ "T") "").1 Parser.new "x"
      ["a", "Food", "USD", "5"] (by decide),
    (c4_error_word_skipped (Transaction.new ⟨2020, 1, 10⟩ "T") "a Food").2.1 (by decide),
    (c4_error_word_skipped (Transaction.new ⟨2020, 1, 10⟩ "T") "a Food USD 5").2.2
      (by decide) (by decide)⟩

/-- C5 counterexample: the currency token `1a2b` contains non-digit
characters, yet the parser rejects it in the `ExpectCurrency` state — the
regex `^[^0-9]+$` demands that every character be a non-digit, not that at
least one be. -/
theorem c5_currency_cex :
    ("1a2b".data.any (fun ch => !ch.isDigit)) = true ∧
    isErr (Parser.parse_word ⟨.currency, some .addSimple, ["Expenses"], none, none⟩ "1a2b") =
      true := by
  refine ⟨by decide, by decide⟩

/-- C5 (amended): in the `ExpectCurrency` state a word is accepted — stored
as the currency, advancing to `ExpectAmount` — exactly when it is nonempty
and contains no ASCII digit at all; otherwise the parser fails with the
invalid-currency error and its state is unchanged. -/
theorem c5_currency_all_nondigit (p : Parser) (w : String)
    (hp : p.next = TokenType.currency) :
    Parser.parse_word p w =
      (if isValidCurrency w then
        Except.ok { p with currency := some w, next := TokenType.amount }
      else Except.error "Currency contains invalid characters") ∧
    (isValidCurrency w = true ↔ w.data ≠ [] ∧ ∀ ch ∈ w.data, ch.isDigit = false) := by
  constructor
  · obtain ⟨nx, ot, ac, cu, amt⟩ := p
    replace hp : nx = TokenType.currency := hp
    subst hp
    rfl
  · unfold isValidCurrency
    rw [Bool.and_eq_true, List.all_eq_true]
    constructor
    · rintro ⟨h1, h2⟩
      refine ⟨by simpa using h1, fun ch hch => by simpa using h2 ch hch⟩
    · rintro ⟨h1, h2⟩
      refine ⟨by simpa using h1, fun ch hch => by simpa using h2 ch hch⟩

theorem c5_currency_all_nondigit_witness :
    (Parser.parse_word ⟨.currency, some .addSimple, ["Expenses"], none, none⟩ "US" =
      (if isValidCurrency "US" then
        Except.ok ⟨.amount, some .addSimple, ["Expenses"], some "US", none⟩
      else Except.error "Currency contains invalid characters")) ∧
    (isValidCurrency "US" = true ↔ "US".data ≠ [] ∧ ∀ ch ∈ "US".data, ch.isDigit = false) :=
  c5_currency_all_nondigit ⟨.currency, some .addSimple, ["Expenses"], none, none⟩ "US" rfl

/-- C10: whenever the first whitespace-delimited field of the line parses as
a `YYYY-MM-DD` date, `parse_transaction_header` succeeds with an empty
changes map and a description equal to the remaining fields joined by single
spaces (so interior whitespace runs collapse, and a date-only line yields an
empty description). -/
theorem c10_header_split_join (line : String) (d : String) (rest : List String) (date : Date)
    (h1 : splitAsciiWhitespace line = d :: rest) (h2 : parseDate d = some date) :
    parse_transaction_header line = .ok ⟨date, String.intercalate " " rest, []⟩ := by
  unfold parse_transaction_header
  rw [h1]
  show (match parseDate d with
    | some date => Except.ok (Transaction.new date (String.intercalate " " rest))
    | none => Except.error "Malformed transaction date") =
    Except.ok ⟨date, String.intercalate " " rest, []⟩
  rw [h2]
  rfl

theorem c10_header_split_join_witness :
    (splitAsciiWhitespace "2020-01-10  Groceries \t run" = ["2020-01-10", "Groceries", "run"] ∧
     parseDate "2020-01-10" = some ⟨2020, 1, 10⟩ ∧
     String.intercalate " " ["Groceries", "run"] = "Groceries run" ∧
     parse_transaction_header "2020-01-10  Groceries \t run" =
       .ok ⟨⟨2020, 1, 10⟩, String.intercalate " " ["Groceries", "run"], []⟩) ∧
    (splitAsciiWhitespace "2020-01-10" = ["2020-01-10"] ∧
     String.intercalate " " ([] : List String) = "" ∧
     parse_transaction_header "2020-01-10" =
       .ok ⟨⟨2020, 1, 10⟩, String.intercalate " " [], []⟩) :=
  ⟨⟨by decide, by decide, by decide,
    c10_header_split_join "2020-01-10  Groceries \t run" "2020-01-10" ["Groceries", "run"]
      ⟨2020, 1, 10⟩ (by decide) (by decide)⟩,
   ⟨by decide, by decide,
    c10_header_split_join "2020-01-10" "2020-01-10" [] ⟨2020, 1, 10⟩ (by decide) (by decide)⟩⟩

theorem dedupeStep_concat (init : List (Date × Nat)) (q p : Date × Nat) :
    dedupeStep (init ++ [q]) p =
      if q.1 = p.1 then init ++ [p] else (init ++ [q]) ++ [p] := by
  unfold dedupeStep
  simp only [List.getLast?_concat]
  by_cases hq : q.1 = p.1
  · rw [if_pos hq, if_pos hq, List.dropLast_concat]
  · rw [if_neg hq, if_neg hq]

theorem collapseRuns_cons_cons (p q : Date × Nat) (rest : List (Date × Nat)) :
    collapseRuns (p :: q :: rest) =
      if p.1 = q.1 then collapseRuns (q :: rest) else p :: collapseRuns (q :: rest) := by
  simp only [collapseRuns]

theorem dedupeFold_eq_aux (l : List (Date × Nat)) :
    ∀ (init : List (Date × Nat)) (q : Date × Nat),
      l.foldl dedupeStep (init ++ [q]) = init ++ collapseRuns (q :: l) := by
  induction l with
  | nil =>
    intro init q
    simp [collapseRuns]
  | cons p rest ih =>
    intro init q
    simp only [List.foldl_cons, dedupeStep_concat]
    rw [collapseRuns_cons_cons]
    by_cases hq : q.1 = p.1
    · rw [if_pos hq, if_pos hq, ih init p]
    · rw [if_neg hq, if_neg hq, ih (init ++ [q]) p, List.append_assoc,
        List.singleton_append]

theorem dedupeFold_eq_collapseRuns (l : List (Date × Nat)) :
    dedupeFold l = collapseRuns l := by
  cases l with
  | nil => rfl
  | cons p rest =>
    unfold dedupeFold
    simp only [List.foldl_cons]
    have h0 : dedupeStep [] p = [] ++ [p] := rfl
    rw [h0, dedupeFold_eq_aux rest [] p]
    rfl

theorem collapseRuns_sublist : ∀ (l : List (Date × Nat)), (collapseRuns l).Sublist l
  | [] => List.Sublist.refl _
  | [p] => List.Sublist.refl _
  | p :: q :: rest => by
    simp only [collapseRuns]
    by_cases h : p.1 = q.1
    · rw [if_pos h]
      exact (collapseRuns_sublist (q :: rest)).cons p
    · rw [if_neg h]
      exact (collapseRuns_sublist (q :: rest)).cons₂ p

theorem collapseRuns_pairwise : ∀ {l : List (Date × Nat)},
    l.Pairwise (fun p q => dateLe p.1 q.1) →
    (collapseRuns l).Pairwise (fun p q => dateLt p.1 q.1)
  | [], _ => List.Pairwise.nil
  | [p], _ => List.pairwise_singleton _ _
  | p :: q :: rest, h => by
    simp only [collapseRuns]
    rw [List.pairwise_cons] at h
    by_cases he : p.1 = q.1
    · rw [if_pos he]
      exact collapseRuns_pairwise h.2
    · rw [if_neg he]
      rw [List.pairwise_cons]
      refine ⟨?_, collapseRuns_pairwise h.2⟩
      intro r hr
      have hrm : r ∈ q :: rest := (collapseRuns_sublist (q :: rest)).subset hr
      rcases List.mem_cons.mp hrm with rfl | hr2
      · exact dateLt_of_le_of_ne (h.1 r (List.mem_cons_self _ _)) he
      · have hq : dateLe q.1 r.1 := (List.pairwise_cons.mp h.2).1 r hr2
        exact dateLt_of_lt_of_le
          (dateLt_of_le_of_ne (h.1 q (List.mem_cons_self q rest)) he) hq

theorem collapseRuns_nodup {l : List (Date × Nat)}
    (h : l.Pairwise (fun p q => dateLe p.1 q.1)) :
    ((collapseRuns l).map Prod.fst).Nodup := by
  rw [List.Nodup, List.pairwise_map]
  exact (collapseRuns_pairwise h).imp (fun hlt => dateLt_ne hlt)

theorem getLast?_cons_of_getLast? {l : List (Date × Nat)} {x : Date × Nat}
    (h : l.getLast? = some x) (a : Date × Nat) : (a :: l).getLast? = some x := by
  cases l with
  | nil => simp at h
  | cons b rest => rw [List.getLast?_cons_cons]; exact h

theorem collapseRuns_last_offset : ∀ {l : List (Date × Nat)},
    l.Pairwise (fun p q => dateLe p.1 q.1) →
    ∀ p ∈ collapseRuns l, (l.filter (fun q => q.1 == p.1)).getLast? = some p
  | [], _, p, hp => by simp [collapseRuns] at hp
  | [r], _, p, hp => by
    simp only [collapseRuns, List.mem_singleton] at hp
    subst hp
    simp [List.filter]
  | r :: q :: rest, h, p, hp => by
    rw [List.pairwise_cons] at h
    simp only [collapseRuns] at hp
    by_cases he : r.1 = q.1
    · rw [if_pos he] at hp
      have ihl := collapseRuns_last_offset h.2 p hp
      rw [List.filter_cons]
      by_cases hr : (r.1 == p.1) = true
      · rw [if_pos hr]
        exact getLast?_cons_of_getLast? ihl r
      · rw [if_neg hr]
        exact ihl
    · rw [if_neg he] at hp
      rcases List.mem_cons.mp hp with rfl | hp2
      · have hnone : (q :: rest).filter (fun x => x.1 == p.1) = [] := by
          rw [List.filter_eq_nil_iff]
          intro x hx
          rcases List.mem_cons.mp hx with rfl | hx2
          · simpa using fun e : x.1 = p.1 => he e.symm
          · have hql : dateLe q.1 x.1 := (List.pairwise_cons.mp h.2).1 x hx2
            have hlt : dateLt p.1 x.1 :=
              dateLt_of_lt_of_le
                (dateLt_of_le_of_ne (h.1 q (List.mem_cons_self q rest)) he) hql
            simpa using fun e : x.1 = p.1 => dateLt_ne hlt e.symm
        rw [List.filter_cons, if_pos (by simp), hnone]
        rfl
      · have ihl := collapseRuns_last_offset h.2 p hp2
        have hne : (r.1 == p.1) = false := by
          have hpm : p ∈ q :: rest := (collapseRuns_sublist (q :: rest)).subset hp2
          rcases List.mem_cons.mp hpm with rfl | hp3
          · simpa using fun e : r.1 = p.1 => he e
          · have hql : dateLe q.1 p.1 := (List.pairwise_cons.mp h.2).1 p hp3
            have hlt : dateLt r.1 p.1 :=
              dateLt_of_lt_of_le
                (dateLt_of_le_of_ne (h.1 q (List.mem_cons_self q rest)) he) hql
            simpa using dateLt_ne hlt
        rw [List.filter_cons, if_neg (by simp [hne])]
        exact ihl

theorem collapseRuns_covers : ∀ (l : List (Date × Nat)) (d : Date),
    d ∈ l.map Prod.fst → d ∈ (collapseRuns l).map Prod.fst
  | [], d, h => by simp at h
  | [p], d, h => h
  | p :: q :: rest, d, h => by
    simp only [collapseRuns]
    by_cases he : p.1 = q.1
    · rw [if_pos he]
      apply collapseRuns_covers (q :: rest) d
      simp only [List.map_cons, List.mem_cons] at h ⊢
      rcases h with h | h
      · exact Or.inl (h.trans he)
      · exact h
    · rw [if_neg he]
      simp only [List.map_cons, List.mem_cons] at h ⊢
      rcases h with h | h
      · exact Or.inl h
      · have hc := collapseRuns_covers (q :: rest) d (by simpa using h)
        simp only [List.map_cons, List.mem_cons] at hc
        exact Or.inr hc

/-- C6 counterexample: with equal dates that are not adjacent, the fold in
`get_date_end_positions` keeps both of them — it only compares against the
last collected pair, so 2020-01-01 survives twice and no "one pair per
distinct date" deduplication happens. -/
theorem c6_dedupe_cex :
    dedupeFold [(⟨2020, 1, 1⟩, 10), (⟨2020, 1, 2⟩, 20), (⟨2020, 1, 1⟩, 30)] =
      [(⟨2020, 1, 1⟩, 10), (⟨2020, 1, 2⟩, 20), (⟨2020, 1, 1⟩, 30)] ∧
    ¬ ((dedupeFold [(⟨2020, 1, 1⟩, 10), (⟨2020, 1, 2⟩, 20), (⟨2020, 1, 1⟩, 30)]).map
        Prod.fst).Nodup := by
  refine ⟨by decide, by decide⟩

/-- C6 (amended): the fold merges only maximal runs of adjacent equal dates,
keeping the last pair of each run. When the input rows are sorted by date —
as the `ledger register --sort date,beg_pos` invocation guarantees — equal
dates are adjacent, so exactly one pair per distinct date survives, it is
the last occurrence of that date in the input (hence carries that
occurrence's offset), and every input date is still covered. Non-adjacent
repeats of a date are not merged. -/
theorem c6_dedupe_last_of_sorted (l : List (Date × Nat))
    (h : l.Pairwise (fun p q => dateLe p.1 q.1)) :
    ((dedupeFold l).map Prod.fst).Nodup ∧
    (∀ p ∈ dedupeFold l, (l.filter (fun q => q.1 == p.1)).getLast? = some p) ∧
    (∀ d ∈ l.map Prod.fst, d ∈ (dedupeFold l).map Prod.fst) := by
  rw [dedupeFold_eq_collapseRuns]
  exact ⟨collapseRuns_nodup h, collapseRuns_last_offset h,
    fun d hd => collapseRuns_covers l d hd⟩

theorem c6_dedupe_last_of_sorted_witness :
    (([((⟨2020, 1, 5⟩ : Date), 9), (⟨2020, 1, 5⟩, 21), (⟨2020, 1, 7⟩, 30)] :
      List (Date × Nat)).Pairwise (fun p q => dateLe p.1 q.1)) ∧
    ((dedupeFold [(⟨2020, 1, 5⟩, 9), (⟨2020, 1, 5⟩, 21), (⟨2020, 1, 7⟩, 30)]).map
      Prod.fst).Nodup ∧
    (([(⟨2020, 1, 5⟩, 9), (⟨2020, 1, 5⟩, 21), (⟨2020, 1, 7⟩, 30)] :
        List (Date × Nat)).filter (fun q => q.1 == (⟨2020, 1, 5⟩ : Date))).getLast? =
      some (⟨2020, 1, 5⟩, 21) ∧
    ((⟨2020, 1, 5⟩ : Date) ∈
      (dedupeFold [(⟨2020, 1, 5⟩, 9), (⟨2020, 1, 5⟩, 21), (⟨2020, 1, 7⟩, 30)]).map Prod.fst) :=
  ⟨by decide,
    (c6_dedupe_last_of_sorted _ (by decide)).1,
    (c6_dedupe_last_of_sorted [(⟨2020, 1, 5⟩, 9), (⟨2020, 1, 5⟩, 21), (⟨2020, 1, 7⟩, 30)]
      (by decide)).2.1 (⟨2020, 1, 5⟩, 21) (by decide),
    (c6_dedupe_last_of_sorted [(⟨2020, 1, 5⟩, 9), (⟨2020, 1, 5⟩, 21), (⟨2020, 1, 7⟩, 30)]
      (by decide)).2.2 ⟨2020, 1, 5⟩ (by decide)⟩

/-- C2 at the claim's concrete scenario: the insertion point computed by
`get_pos_for_date` for 2020-01-05 against a file whose only entry is dated
2020-01-10 is indeed byte offset 0 — but `write_transaction`'s
`split_offset` adjustment then splits the buffer at offset 1, so the written
file starts with the first byte of the old entry followed by a newline, and
the rendered transaction lands at byte offset 2, corrupting the existing
entry instead of being placed at offset 0. -/
theorem c2_insert_before_first_entry_eval :
    get_pos_for_date [(⟨2020, 1, 10⟩, 21)] ⟨2020, 1, 5⟩ = 0 ∧
    splice (bytes "2020-01-10 Food\n\tA\tUSD 5\n") [(⟨2020, 1, 10⟩, 21)] ⟨2020, 1, 5⟩
        (bytes "2020-01-05 New\n\tB\tUSD 5\n") =
      some (50 :: 10 :: (bytes "2020-01-05 New\n\tB\tUSD 5\n" ++
        10 :: (bytes "2020-01-10 Food\n\tA\tUSD 5\n").drop 1)) ∧
    ¬ (50 :: 10 :: (bytes "2020-01-05 New\n\tB\tUSD 5\n" ++
        10 :: (bytes "2020-01-10 Food\n\tA\tUSD 5\n").drop 1)).take
          (bytes "2020-01-05 New\n\tB\tUSD 5\n").length =
        bytes "2020-01-05 New\n\tB\tUSD 5\n" := by
  refine ⟨by decide, by decide, by decide⟩

/-- C3 at its first step: inserting any transaction into an initially empty
ledger file panics — `buf.len() - 1` underflows (and the resulting
`split_at` is out of bounds), modelled as `none` — even though the intended
insertion point is offset 0, so the three-date scenario cannot even start. -/
theorem c3_empty_file_insert_panics :
    get_pos_for_date [] ⟨2020, 1, 5⟩ = 0 ∧
    splice [] [] ⟨2020, 1, 5⟩ (bytes "2020-01-05 New\n\tB\tUSD 5\n") = none := by
  refine ⟨by decide, rfl⟩

example :
    (runWords Parser.new ["a", "Expenses", "€", "12.34"]).operation =
      some (.addSimpleChange "Expenses" ⟨"€", 617 / 50⟩) := by decide

example :
    (runWords Parser.new ["s", "Expenses", "Debts:Peter", "CZK", "120.50"]).operation =
      some (.addSplitChange "Expenses" "Debts:Peter" ⟨"CZK", 241 / 2⟩) := by decide

example :
    (runWords Parser.new ["f", "Accounts:Checking"]).operation =
      some (.finalize "Accounts:Checking") := by decide

example :
    (runWords Parser.new
        ["x", "a", "123", "1checking", "Expenses", "123", "€", "1a2b", "12.30"]).operation =
      some (.addSimpleChange "Expenses" ⟨"€", 123 / 10⟩) := by decide

example :
    (parse_transaction_header "2020-02-27 Test transaction").toOption =
      some ⟨⟨2020, 2, 27⟩, "Test transaction", []⟩ := by decide

example :
    findAmounts? (((((Transaction.new ⟨2020, 1, 10⟩ "Test").add_change "Expenses::Food"
        ⟨"€", 7⟩).add_change "Expenses::Food" ⟨"CZK", 500⟩).add_change "Assets::Cash"
        ⟨"€", -2⟩).add_change "Assets::Cash" ⟨"CZK", -400⟩).changes "Assets::Cash" =
      some [⟨"CZK", -400⟩, ⟨"€", -2⟩] := by decide

example :
    findAmounts? ((((((Transaction.new ⟨2020, 1, 10⟩ "Test").add_change "Expenses::Food"
        ⟨"€", 7⟩).add_change "Expenses::Food" ⟨"CZK", 500⟩).add_change "Assets::Cash"
        ⟨"€", -2⟩).add_change "Assets::Cash" ⟨"CZK", -400⟩).finalize
        "Assets::Account").changes "Assets::Account" =
      some [⟨"CZK", -100⟩, ⟨"€", -5⟩] ∧
    (((((((Transaction.new ⟨2020, 1, 10⟩ "Test").add_change "Expenses::Food"
        ⟨"€", 7⟩).add_change "Expenses::Food" ⟨"CZK", 500⟩).add_change "Assets::Cash"
        ⟨"€", -2⟩).add_change "Assets::Cash" ⟨"CZK", -400⟩).finalize
        "Assets::Account")).balance = [⟨"CZK", 0⟩, ⟨"€", 0⟩] := by decide
